import Mathlib

/-!
# Verification of the depman dependency-resolution engine

A shallow embedding of the depman engine (Version Resolver, Dependency
Graph Resolver, Status Tracker / Manager, Command Executor) together with
the CLI entry points `runCheck` / `runEnsure` from `cmd/depman/main.go`,
and proofs of the spec's testable properties about them.

The engine package itself (`pkg/depman`) is not part of the available
sources; its components are modelled from the specification (each such
definition carries a `Modelled from the spec:` doc comment).  The CLI
functions are translated directly from `cmd/depman/main.go`.
-/

set_option autoImplicit false

deriving instance DecidableEq for Except

namespace Depman

/-! ## Data model -/

/-- A parsed semantic version `major.minor.patch` (pre-release/build
metadata stripped before comparison, per the spec). -/
structure Version where
  major : Nat
  minor : Nat
  patch : Nat
deriving DecidableEq

/-- Modelled from the spec: the update classification produced by the
Version Resolver (`requiredUpdate` values of a `DependencyStatus`). -/
inductive UpdateKind where
  | NoUpdate
  | PatchUpdate
  | MinorUpdate
  | MajorUpdate
  | NotInstalled
deriving DecidableEq

/-- Modelled from the spec: the error taxonomy of §7, plus an internal
`fuelExhausted` marker used only by the bounded depth-first traversal of
the Graph Resolver (proved unreachable below). -/
inductive DepError where
  | invalidVersionFormat (s : String)
  | unsupportedPlatform (dep platform : String)
  | templateError (token : String)
  | commandFailed (exitCode : Nat)
  | checksumMismatch
  | verificationFailed
  | cyclicDependency (members : List String)
  | unknownDependency (name : String)
  | prerequisiteFailed (blocking : String)
  | timeout
  | cancelled
  | fuelExhausted
deriving DecidableEq

/-- The `version` block of a dependency: exact required version and an
optional range constraint (empty string means exact match only). -/
structure VersionSpec where
  required : String
  constraint : String
deriving DecidableEq

/-- Installer descriptor of a `PlatformConfig`. -/
structure InstallerSpec where
  type : String
  url : Option String
  checksum : Option String
deriving DecidableEq

/-- The per-platform command set: ordered argument lists. -/
structure CommandSet where
  install : List String
  verify : List String
  uninstall : Option (List String)
deriving DecidableEq

/-- Platform-specific configuration of a dependency. -/
structure PlatformConfig where
  installer : InstallerSpec
  commands : CommandSet
deriving DecidableEq

/-- Environment spec: PATH entries to prepend and environment variables
to set (the field is called `variables` in the manifest; that word is a
reserved token in Lean, hence `vars`). -/
structure EnvironmentSpec where
  path : List String
  vars : List (String × String)
deriving DecidableEq

/-- One dependency entry of the manifest. `dependencies` is the ordered
list of prerequisite dependency names. -/
structure Dependency where
  name : String
  description : String
  version : VersionSpec
  platforms : List (String × PlatformConfig)
  environment : EnvironmentSpec
  dependencies : List String
deriving DecidableEq

/-- A manifest is its ordered list of dependency entries (the engine
treats the surrounding metadata as opaque). -/
abbrev Manifest := List Dependency

/-- Per-dependency output record of a run. -/
structure DependencyStatus where
  installed : Bool
  currentVersion : String
  requiredUpdate : UpdateKind
  compatible : Bool
  error : Option DepError
deriving DecidableEq

/-! ## Version Resolver

Modelled from the spec §4.1: parse `current` and `required` as semantic
versions; empty constraint means exact equality; caret/tilde ranges;
update kind computed from which component differs (majors first, per the
spec's `1.2.3` vs `2.0.0` → Major example). -/

/-- Split a character list at every occurrence of `c`. -/
def splitOnChar (c : Char) : List Char → List (List Char)
  | [] => [[]]
  | a :: as =>
    let r := splitOnChar c as
    if a = c then [] :: r
    else
      match r with
      | [] => [[a]]
      | g :: gs => (a :: g) :: gs

/-- Accumulating decimal parser over characters. -/
def natFromCharsAux : List Char → Nat → Option Nat
  | [], acc => some acc
  | c :: cs, acc =>
    if c.isDigit then natFromCharsAux cs (acc * 10 + (c.toNat - 48)) else none

/-- Parse a nonempty all-digit character list as a natural number. -/
def natFromChars (l : List Char) : Option Nat :=
  match l with
  | [] => none
  | _ :: _ => natFromCharsAux l 0

/-- Drop pre-release/build metadata: everything from the first `-` or
`+` on (ignored for comparison purposes, per the spec). -/
def stripMeta (l : List Char) : List Char :=
  l.takeWhile (fun c => !(c == '-' || c == '+'))

/-- Modelled from the spec: parse a `major.minor.patch` semantic version
string, ignoring pre-release/build metadata. -/
def parseVersion (s : String) : Option Version :=
  match splitOnChar '.' (stripMeta s.data) with
  | [a, b, c] =>
    match natFromChars a, natFromChars b, natFromChars c with
    | some x, some y, some z => some ⟨x, y, z⟩
    | _, _, _ => none
  | _ => none

/-- Lexicographic order on versions (as booleans, for executability). -/
def verLe (a b : Version) : Bool :=
  decide (a.major < b.major) ||
    (a.major == b.major &&
      (decide (a.minor < b.minor) || (a.minor == b.minor && decide (a.patch ≤ b.patch))))

/-- Modelled from the spec: caret range — changes that do not modify the
leftmost non-zero component of the base version are allowed. -/
def caretSat (cur base : Version) : Bool :=
  if base.major ≠ 0 then cur.major == base.major && verLe base cur
  else if base.minor ≠ 0 then cur.major == 0 && (cur.minor == base.minor && verLe base cur)
  else cur == base

/-- Modelled from the spec: tilde range — patch-level changes only. -/
def tildeSat (cur base : Version) : Bool :=
  cur.major == base.major && (cur.minor == base.minor && decide (base.patch ≤ cur.patch))

/-- Modelled from the spec: evaluate a (caret/tilde/exact) constraint
expression against a parsed current version. -/
def satisfiesConstraint (cur : Version) (c : String) : Bool :=
  match c.data with
  | '^' :: rest =>
    match parseVersion (String.mk rest) with
    | some base => caretSat cur base
    | none => false
  | '~' :: rest =>
    match parseVersion (String.mk rest) with
    | some base => tildeSat cur base
    | none => false
  | _ =>
    match parseVersion c with
    | some base => cur == base
    | none => false

/-- Modelled from the spec: the kind of bump needed to reach `req` from
`cur` — by which version component differs, majors first (the spec's
example: 1.2.3 vs 2.0.0 is Major even though all components differ). -/
def classifyUpdate (cur req : Version) : UpdateKind :=
  if cur = req then .NoUpdate
  else if cur.major ≠ req.major then .MajorUpdate
  else if cur.minor ≠ req.minor then .MinorUpdate
  else .PatchUpdate

/-- Result triple of the Version Resolver. -/
structure ClassifyResult where
  compatible : Bool
  update : UpdateKind
  err : Option DepError
deriving DecidableEq

/-- Modelled from the spec §4.1: `Classify(current, required, constraint)`.
Absent current → NotInstalled/incompatible; unparsable version strings →
`InvalidVersionFormat`, treated as incompatible (the spec fixes only the
incompatibility and the error there; the update field is left NoUpdate);
empty constraint → compatible iff exactly equal; otherwise range
satisfaction.  The update kind is always computed relative to `required`. -/
def classify (current : Option String) (required constraint : String) : ClassifyResult :=
  match current with
  | none => ⟨false, .NotInstalled, none⟩
  | some cs =>
    match parseVersion cs with
    | none => ⟨false, .NoUpdate, some (.invalidVersionFormat cs)⟩
    | some cur =>
      match parseVersion required with
      | none => ⟨false, .NoUpdate, some (.invalidVersionFormat required)⟩
      | some req =>
        let upd := classifyUpdate cur req
        let compat := if constraint = "" then decide (cur = req) else satisfiesConstraint cur constraint
        ⟨compat, upd, none⟩

/-! ## Dependency Graph Resolver

Modelled from the spec §4.5: build the prerequisite graph, produce a
topological order (prerequisites before dependents) by depth-first
traversal with a three-color visited set.  A node is *black* when it is
already in the output order, *gray* while its prerequisites are being
visited; meeting a gray node again signals a cycle (`CyclicDependency`
naming the members), an undefined prerequisite name is
`UnknownDependency`.  The recursion is bounded by a fuel argument equal
to the gray-stack capacity; `fuelExhausted` is proved unreachable. -/

/-- Look up a dependency entry by name (first match, manifest order). -/
def lookupDep (m : Manifest) (n : String) : Option Dependency :=
  m.find? (fun d => d.name == n)

/-- The cycle members reported when node `n` is met while gray:
`n` together with the gray stack up to its previous occurrence. -/
def cycleMembers (n : String) (gray : List String) : List String :=
  n :: gray.takeWhile (fun g => g ≠ n)

/-- Sequentially visit a list of nodes with a fixed visitor `v`,
threading the output order and aborting on the first error. -/
def foldVisit (v : String → List String → List String → Except DepError (List String)) :
    List String → List String → List String → Except DepError (List String)
  | [], _, order => .ok order
  | p :: ps, gray, order =>
    match v p gray order with
    | .error e => .error e
    | .ok o2 => foldVisit v ps gray o2

/-- Depth-first visit of one node: skip if black, report a cycle if
gray, otherwise push it gray, visit its prerequisites, then append it to
the order (black).  Structural in the fuel argument. -/
def visitD (m : Manifest) : Nat → String → List String → List String → Except DepError (List String)
  | fuel, n, gray, order =>
    if n ∈ order then .ok order
    else if n ∈ gray then .error (.cyclicDependency (cycleMembers n gray))
    else
      match lookupDep m n with
      | none => .error (.unknownDependency n)
      | some d =>
        match fuel with
        | 0 => .error .fuelExhausted
        | f + 1 =>
          match foldVisit (visitD m f) d.dependencies (n :: gray) order with
          | .error e => .error e
          | .ok o2 => .ok (o2 ++ [n])

/-- Modelled from the spec: `Order(manifest) → (orderedNames, error)` —
visit every dependency name in manifest declaration order. -/
def Order (m : Manifest) : Except DepError (List String) :=
  foldVisit (visitD m (m.length + 1)) (m.map (fun d => d.name)) [] []

/-- The prerequisite edge relation of a manifest as the resolver walks
it: `edgeOf m a b` holds when the entry resolved for name `a` lists `b`
among its prerequisites. -/
def edgeOf (m : Manifest) (a b : String) : Prop :=
  ∃ d, lookupDep m a = some d ∧ b ∈ d.dependencies

/-- A manifest's prerequisite graph contains a cycle: some node reaches
itself through at least one edge. -/
def HasCycle (m : Manifest) : Prop :=
  ∃ x, Relation.TransGen (edgeOf m) x x

/-- Every prerequisite name referenced in the manifest is defined. -/
def NamesKnown (m : Manifest) : Prop :=
  ∀ d, d ∈ m → ∀ p, p ∈ d.dependencies → ∃ d2, d2 ∈ m ∧ d2.name = p

/-- Position of the first occurrence of `x` in `l` (length if absent). -/
def idx (l : List String) (x : String) : Nat :=
  match l with
  | [] => 0
  | a :: r => if a = x then 0 else idx r x + 1

/-! ## Status Tracker / Manager

Modelled from the spec §4.6: `CheckAll` classifies every dependency in
graph order and never installs; `EnsureAll` additionally drives
NeedsInstall → Installing in graph order, short-circuiting a dependent
whose prerequisite ended in Failed (`PrerequisiteFailed`, without
invoking its install command).  Host interaction is abstracted into a
`Host` record: the detected installed version per dependency name, and
the exit code its install command would produce (0 = the install and
verify commands both succeed). -/

/-- The host as seen by the engine: detected versions and the result of
running each dependency's install (install + verify) commands. -/
structure Host where
  installedVersion : String → Option String
  installExit : String → Nat

/-- Platform Selector (spec §4.2): look up the platform identifier in
the dependency's platform map. -/
def lookupPlatform (d : Dependency) (pid : String) : Option PlatformConfig :=
  (d.platforms.find? (fun p => p.1 == pid)).map (fun p => p.2)

/-- Modelled from the spec: classify one dependency on one host —
platform lookup, then the Version Resolver on the detected version. -/
def checkOne (host : Host) (pid : String) (d : Dependency) : DependencyStatus :=
  match lookupPlatform d pid with
  | none =>
    { installed := false, currentVersion := "", requiredUpdate := .NotInstalled,
      compatible := false, error := some (.unsupportedPlatform d.name pid) }
  | some _ =>
    let cur := host.installedVersion d.name
    let r := classify cur d.version.required d.version.constraint
    { installed := cur.isSome, currentVersion := cur.getD "",
      requiredUpdate := r.update, compatible := r.compatible, error := r.err }

/-- The per-run status map, keyed by dependency name. -/
abbrev StatusMap := List (String × DependencyStatus)

/-- Look up the status recorded for a dependency name. -/
def lookupStatus (sts : StatusMap) (n : String) : Option DependencyStatus :=
  (sts.find? (fun p => p.1 == n)).map (fun p => p.2)

/-- A terminal Failed status carrying the given error. -/
def failedStatus (e : DepError) : DependencyStatus :=
  { installed := false, currentVersion := "", requiredUpdate := .NotInstalled,
    compatible := false, error := some e }

/-- Modelled from the spec: `CheckAll(manifest, platformID)` — resolve
the graph order, then classify every dependency; never installs. -/
def CheckAll (m : Manifest) (pid : String) (host : Host) : Except DepError StatusMap :=
  match Order m with
  | .error e => .error e
  | .ok names =>
    .ok (names.map (fun n =>
      (n, match lookupDep m n with
          | some d => checkOne host pid d
          | none => failedStatus (.unknownDependency n))))

/-- `CheckAll` with the host threaded through explicitly, making the
spec's "no mutation" contract a statement: the returned host is the
input host. -/
def CheckAllS (m : Manifest) (pid : String) (host : Host) :
    Except DepError StatusMap × Host :=
  (CheckAll m pid host, host)

/-- The first prerequisite in `prereqs` whose recorded status is a
failure (processed but not installed). -/
def firstFailedPrereq (sts : StatusMap) (prereqs : List String) : Option String :=
  prereqs.find? (fun p =>
    match lookupStatus sts p with
    | some s => !s.installed
    | none => false)

/-- Record a successful installation of `n` at version `v` on the host. -/
def installHost (host : Host) (n : String) (v : String) : Host :=
  { host with installedVersion := fun k => if k = n then some v else host.installedVersion k }

/-- Accumulated state of an `EnsureAll` run: statuses so far, current
host, and the log of dependency names whose install command was invoked
(in invocation order). -/
structure EnsureState where
  sts : StatusMap
  host : Host
  log : List String

/-- Modelled from the spec: process one dependency of an `EnsureAll`
run.  Satisfied (already installed) and erroring (e.g. unsupported
platform) checks record their status without installing; a dependency
whose declared prerequisite ended in Failed is marked Failed with
`PrerequisiteFailed` without invoking its install command; otherwise the
install command runs (logged), with exit 0 updating the host and a
non-zero exit recorded as `CommandFailed`. -/
def ensureStep (m : Manifest) (pid : String) (st : EnsureState) (n : String) : EnsureState :=
  match lookupDep m n with
  | none => { st with sts := st.sts ++ [(n, failedStatus (.unknownDependency n))] }
  | some d =>
    let c := checkOne st.host pid d
    if c.installed then { st with sts := st.sts ++ [(n, c)] }
    else if c.error.isSome then { st with sts := st.sts ++ [(n, c)] }
    else
      match firstFailedPrereq st.sts d.dependencies with
      | some b => { st with sts := st.sts ++ [(n, failedStatus (.prerequisiteFailed b))] }
      | none =>
        let log2 := st.log ++ [n]
        let code := st.host.installExit n
        if code = 0 then
          let host2 := installHost st.host n d.version.required
          { sts := st.sts ++ [(n, checkOne host2 pid d)], host := host2, log := log2 }
        else
          { sts := st.sts ++ [(n, failedStatus (.commandFailed code))], host := st.host, log := log2 }

/-- Fold `ensureStep` over the graph-resolved order. -/
def ensureGo (m : Manifest) (pid : String) : List String → EnsureState → EnsureState
  | [], st => st
  | n :: ns, st => ensureGo m pid ns (ensureStep m pid st n)

/-- Modelled from the spec: `EnsureAll(manifest, platformID)` — resolve
the graph order (structural errors are run-fatal: no statuses are
produced), then ensure each dependency in that order. -/
def EnsureAll (m : Manifest) (pid : String) (host : Host) : Except DepError EnsureState :=
  match Order m with
  | .error e => .error e
  | .ok names => .ok (ensureGo m pid names ⟨[], host, []⟩)

/-! ## Command Executor

Modelled from the spec §4.3: every token of the command's argument list
is independently substituted for placeholder patterns before execution;
an unresolved placeholder (a substitution key that was not supplied) is
a `TemplateError` raised before any subprocess starts; a non-zero exit
code surfaces as `CommandFailed`. -/

/-- Look up a substitution key. -/
def lookupSub (subs : List (String × String)) (k : String) : Option String :=
  (subs.find? (fun p => p.1 == k)).map (fun p => p.2)

/-- Single-pass placeholder scanner over one token.  The second argument
is `none` outside a placeholder and `some acc` (accumulated key
characters, reversed) after an opening brace; the key ends at the first
closing brace.  An unterminated opening brace is kept literally. -/
def substScan (subs : List (String × String)) : List Char → Option (List Char) → Except DepError (List Char)
  | [], none => .ok []
  | [], some acc => .ok ('{' :: acc.reverse)
  | c :: rest, none =>
    if c = '{' then substScan subs rest (some [])
    else
      match substScan subs rest none with
      | .error e => .error e
      | .ok cs => .ok (c :: cs)
  | c :: rest, some acc =>
    if c = '}' then
      match lookupSub subs (String.mk acc.reverse) with
      | none => .error (.templateError (String.mk acc.reverse))
      | some v =>
        match substScan subs rest none with
        | .error e => .error e
        | .ok cs => .ok (v.data ++ cs)
    else substScan subs rest (some (c :: acc))

/-- Substitute one token of a command template. -/
def substToken (subs : List (String × String)) (t : String) : Except DepError String :=
  match substScan subs t.data none with
  | .error e => .error e
  | .ok cs => .ok (String.mk cs)

/-- Substitute a whole argument list, aborting at the first unresolved
placeholder. -/
def substAll (subs : List (String × String)) : List String → Except DepError (List String)
  | [] => .ok []
  | t :: ts =>
    match substToken subs t with
    | .error e => .error e
    | .ok t2 =>
      match substAll subs ts with
      | .error e => .error e
      | .ok ts2 => .ok (t2 :: ts2)

/-- Outcome of `Run`: the error/exit-code result, and how many
subprocesses were spawned while producing it. -/
structure ExecResult where
  outcome : Except DepError Nat
  spawned : Nat
deriving DecidableEq

/-- Modelled from the spec: `Run(commandTemplate, substitutions)` —
substitute all tokens (failing fast, before any subprocess starts), then
execute as a single foreground subprocess (`exec` gives its exit code);
non-zero exit is a `CommandFailed` error. -/
def runCommand (subs : List (String × String)) (tmpl : List String)
    (exec : List String → Nat) : ExecResult :=
  match substAll subs tmpl with
  | .error e => { outcome := .error e, spawned := 0 }
  | .ok argv =>
    let code := exec argv
    { outcome := if code = 0 then .ok 0 else .error (.commandFailed code), spawned := 1 }

/-! ## CLI entry points (from `cmd/depman/main.go`) -/

/-- From `runCheck` in `cmd/depman/main.go`: one status keeps `allOk`
true iff it is installed, needs no update, is compatible and carries no
error. -/
def statusOk (s : DependencyStatus) : Bool :=
  (if s.installed then (s.requiredUpdate == UpdateKind.NoUpdate) && s.compatible else false)
    && s.error.isNone

/-- From `runCheck`: the conjunction of `statusOk` over the status map. -/
def checkAllOk (sts : StatusMap) : Bool :=
  sts.all (fun p => statusOk p.2)

/-- From `runCheck` in `cmd/depman/main.go`: given the status map of a
successful `CheckAllDependencies`, the check command's error result. -/
def runCheckVerdict (sts : StatusMap) : Option String :=
  if checkAllOk sts then none else some "one or more dependencies need attention"

/-- From `runCheck` in `cmd/depman/main.go` (manager construction
abstracted away): check all dependencies, then report. -/
def runCheck (m : Manifest) (pid : String) (host : Host) : Option String :=
  match CheckAll m pid host with
  | .error _ => some "failed to check dependencies"
  | .ok sts => runCheckVerdict sts

/-- From `runEnsure` in `cmd/depman/main.go`: after a successful
`EnsureDependencies`, the statuses are printed and the command returns
nil regardless of their contents. -/
def runEnsure (m : Manifest) (pid : String) (host : Host) : Option String :=
  match EnsureAll m pid host with
  | .error _ => some "failed to ensure dependencies"
  | .ok _ => none

/-! ## Invariants of the depth-first traversal -/

/-- An output order is good when every element was appended only after
all prerequisites of its (resolver-visible) dependency record. -/
inductive GoodOrder (m : Manifest) : List String → Prop
  | nil : GoodOrder m []
  | snoc (l : List String) (n : String) (h : GoodOrder m l)
      (hpre : ∀ d, lookupDep m n = some d → ∀ p, p ∈ d.dependencies → p ∈ l) :
      GoodOrder m (l ++ [n])

/-- The invariant carried through the traversal: the gray stack is
disjoint from the (black) output order, which is duplicate-free, good,
and made of manifest names. -/
def Inv (m : Manifest) (gray order : List String) : Prop :=
  (∀ g, g ∈ gray → g ∉ order) ∧ order.Nodup ∧ GoodOrder m order ∧
    (∀ x, x ∈ order → ∃ d, d ∈ m ∧ d.name = x)

/-! ## Concrete fixtures used by witnesses and counterexamples -/

/-- A trivial platform configuration for the `linux` platform key. -/
def pcLinux : PlatformConfig :=
  { installer := { type := "binary", url := none, checksum := none }
    commands := { install := ["inst"], verify := ["ver"], uninstall := none } }

/-- A dependency named `n` requiring version `req` exactly, supported on
`linux`, with prerequisite names `pre`. -/
def mkDep (n req : String) (pre : List String) : Dependency :=
  { name := n, description := ""
    version := { required := req, constraint := "" }
    platforms := [("linux", pcLinux)]
    environment := { path := [], vars := [] }
    dependencies := pre }

/-- A manifest with A depending on B. -/
def mfAB : Manifest := [mkDep "A" "1.0.0" ["B"], mkDep "B" "1.0.0" []]

/-- A manifest with a two-cycle between A and B. -/
def mfCycle : Manifest := [mkDep "A" "1.0.0" ["B"], mkDep "B" "1.0.0" ["A"]]

/-- A manifest containing both an unknown prerequisite name (C requires
the undefined X, listed first) and the A/B cycle. -/
def mfCycleUnknown : Manifest :=
  [mkDep "C" "1.0.0" ["X"], mkDep "A" "1.0.0" ["B"], mkDep "B" "1.0.0" ["A"]]

/-- A host with nothing installed on which B's install command exits 1
and every other install exits 0. -/
def hostFailB : Host :=
  { installedVersion := fun _ => none, installExit := fun n => if n = "B" then 1 else 0 }

/-- A host on which A is already installed at its required version while
B's install command exits 1. -/
def hostAInst : Host :=
  { installedVersion := fun n => if n = "A" then some "1.0.0" else none
    installExit := fun n => if n = "B" then 1 else 0 }

/-- The result state of `EnsureAll` on `mfAB` over `hostFailB`. -/
def ensureFailB : EnsureState :=
  match EnsureAll mfAB "linux" hostFailB with
  | .ok st => st
  | .error _ => ⟨[], hostFailB, []⟩

/-- The result state of `EnsureAll` on `mfAB` over `hostAInst`. -/
def ensureAInst : EnsureState :=
  match EnsureAll mfAB "linux" hostAInst with
  | .ok st => st
  | .error _ => ⟨[], hostAInst, []⟩

/-- Keys of the substitution maps: no brace characters occur in them. -/
def KeysBraceFree (subs : List (String × String)) : Prop :=
  ∀ p, p ∈ subs → '{' ∉ p.1.data ∧ '}' ∉ p.1.data

/-- The fixed substitution map used by the executor fixtures. -/
def subsFix : List (String × String) := [("download_path", "/tmp/pkg.msi")]

/-- A command template whose last token is the unresolved placeholder
`\x7bunknown_token\x7d`. -/
def tmplUnknown : List String :=
  ["msiexec", "/i", String.mk ('{' :: ("unknown_token".data ++ [ '}' ]))]

/-! ## Version Resolver: claims C1 and C2 -/

/-- Claim C1: Version Resolver exact-match case — for every version
string `v` (a string that parses as a semantic version), classifying
current `v` against required `v` with an empty constraint yields
`compatible = true` and `update = NoUpdate`. -/
theorem classify_exact_match_c1 (v : String) (ver : Version)
    (h : parseVersion v = some ver) :
    (classify (some v) v "").compatible = true ∧
      (classify (some v) v "").update = UpdateKind.NoUpdate := by
  simp [classify, h, classifyUpdate]

/-- Witness for C1 at the concrete version string `1.2.3`. -/
theorem classify_exact_match_c1_witness :
    parseVersion "1.2.3" = some ⟨1, 2, 3⟩ ∧
      (classify (some "1.2.3") "1.2.3" "").compatible = true ∧
      (classify (some "1.2.3") "1.2.3" "").update = UpdateKind.NoUpdate :=
  ⟨by decide, classify_exact_match_c1 "1.2.3" ⟨1, 2, 3⟩ (by decide)⟩

/-- Claim C2: for every pair of unequal parsed semantic versions with an
empty constraint, the update is the kind of bump needed to reach the
required version — Major/Minor/Patch by which component differs, the
most significant differing component deciding when several differ; in
particular current `1.2.3` against required `2.0.0` gives `MajorUpdate`
and `compatible = false`. -/
theorem classify_update_kind_c2 (cur req : Version) (h : cur ≠ req) :
    classifyUpdate cur req =
      (if cur.major ≠ req.major then UpdateKind.MajorUpdate
       else if cur.minor ≠ req.minor then UpdateKind.MinorUpdate
       else UpdateKind.PatchUpdate) ∧
      (classify (some "1.2.3") "2.0.0" "").update = UpdateKind.MajorUpdate ∧
      (classify (some "1.2.3") "2.0.0" "").compatible = false := by
  refine ⟨?_, by decide, by decide⟩
  simp [classifyUpdate, h]

/-- Witness for C2 at the pair 1.2.3 / 2.0.0. -/
theorem classify_update_kind_c2_witness :
    classifyUpdate ⟨1, 2, 3⟩ ⟨2, 0, 0⟩ =
      (if (Version.mk 1 2 3).major ≠ (Version.mk 2 0 0).major then UpdateKind.MajorUpdate
       else if (Version.mk 1 2 3).minor ≠ (Version.mk 2 0 0).minor then UpdateKind.MinorUpdate
       else UpdateKind.PatchUpdate) ∧
      (classify (some "1.2.3") "2.0.0" "").update = UpdateKind.MajorUpdate ∧
      (classify (some "1.2.3") "2.0.0" "").compatible = false :=
  classify_update_kind_c2 ⟨1, 2, 3⟩ ⟨2, 0, 0⟩ (by decide)

/-! ## CLI: claims C9 and C10 -/

/-- `statusOk` in terms of the status fields. -/
theorem statusOk_eq_true (s : DependencyStatus) :
    statusOk s = true ↔
      s.installed = true ∧ s.requiredUpdate = UpdateKind.NoUpdate ∧
        s.compatible = true ∧ s.error = none := by
  cases s with
  | mk installed cv ru comp err =>
    cases installed <;> cases err <;>
      simp [statusOk, Option.isNone]

/-- Claim C10: `runCheck` fails with "one or more dependencies need
attention" iff some status is not installed, or needs an update, or is
incompatible, or carries an error; otherwise it returns nil — in
particular an installed, compatible dependency with a pending update
still fails the check. -/
theorem runCheck_failure_c10 (sts : StatusMap) :
    (runCheckVerdict sts = some "one or more dependencies need attention" ↔
      ∃ p, p ∈ sts ∧ (p.2.installed = false ∨ p.2.requiredUpdate ≠ UpdateKind.NoUpdate ∨
        p.2.compatible = false ∨ p.2.error ≠ none)) ∧
    (runCheckVerdict sts = none ↔
      ¬∃ p, p ∈ sts ∧ (p.2.installed = false ∨ p.2.requiredUpdate ≠ UpdateKind.NoUpdate ∨
        p.2.compatible = false ∨ p.2.error ≠ none)) := by
  have key : checkAllOk sts = true ↔
      ¬∃ p, p ∈ sts ∧ (p.2.installed = false ∨ p.2.requiredUpdate ≠ UpdateKind.NoUpdate ∨
        p.2.compatible = false ∨ p.2.error ≠ none) := by
    unfold checkAllOk
    rw [List.all_eq_true]
    constructor
    · rintro hall ⟨p, hp, hbad⟩
      have h1 := (statusOk_eq_true p.2).mp (hall p hp)
      rcases hbad with hb | hb | hb | hb
      · rw [h1.1] at hb; exact absurd hb (by decide)
      · exact hb h1.2.1
      · rw [h1.2.2.1] at hb; exact absurd hb (by decide)
      · rw [h1.2.2.2] at hb; exact hb rfl
    · intro hno p hp
      rw [statusOk_eq_true]
      refine ⟨?_, ?_, ?_, ?_⟩
      · cases hb : p.2.installed
        · exact absurd ⟨p, hp, Or.inl hb⟩ hno
        · rfl
      · by_contra hb
        exact hno ⟨p, hp, Or.inr (Or.inl hb)⟩
      · cases hb : p.2.compatible
        · exact absurd ⟨p, hp, Or.inr (Or.inr (Or.inl hb))⟩ hno
        · rfl
      · cases hb : p.2.error with
        | none => rfl
        | some e =>
          exact absurd ⟨p, hp, Or.inr (Or.inr (Or.inr (by
            rw [hb]; exact Option.some_ne_none e)))⟩ hno
  by_cases h : checkAllOk sts = true
  · have hv : runCheckVerdict sts = none := by
      unfold runCheckVerdict; rw [if_pos h]
    rw [hv]
    constructor
    · constructor
      · intro hx; exact absurd hx (by simp)
      · intro hbad; exact absurd hbad (key.mp h)
    · exact ⟨fun _ => key.mp h, fun _ => rfl⟩
  · have hv : runCheckVerdict sts = some "one or more dependencies need attention" := by
      unfold runCheckVerdict; rw [if_neg h]
    rw [hv]
    constructor
    · constructor
      · intro _
        by_contra hno
        exact h (key.mpr hno)
      · intro _; rfl
    · constructor
      · intro hx; exact absurd hx (by simp)
      · intro hno; exact absurd (key.mpr hno) h

/-- Claim C9: per-dependency failures never surface as a manager-level
error — whenever `EnsureAll` returns a status map (no run-fatal error),
`runEnsure` returns nil, regardless of the per-status error, compatible
or installed fields. -/
theorem runEnsure_success_c9 (m : Manifest) (pid : String) (host : Host)
    (st : EnsureState) (h : EnsureAll m pid host = .ok st) :
    runEnsure m pid host = none := by
  simp [runEnsure, h]

/-- Witness for C9: on `mfAB` over `hostFailB`, B's status carries a
`CommandFailed` error, yet `runEnsure` returns nil. -/
theorem runEnsure_success_c9_witness :
    runEnsure mfAB "linux" hostFailB = none ∧
      EnsureAll mfAB "linux" hostFailB = .ok ensureFailB ∧
      (lookupStatus ensureFailB.sts "B").map DependencyStatus.error =
        some (some (.commandFailed 1)) :=
  ⟨runEnsure_success_c9 mfAB "linux" hostFailB ensureFailB rfl, rfl, by decide⟩

/-! ## Command Executor: claim C7 -/

/-- Every error produced by the placeholder scanner is a `TemplateError`. -/
theorem substScan_error_shape (subs : List (String × String)) :
    ∀ (l : List Char) (st : Option (List Char)) (e : DepError),
      substScan subs l st = .error e → ∃ s, e = .templateError s := by
  intro l
  induction l with
  | nil =>
    intro st e h
    cases st <;> simp [substScan] at h
  | cons c rest ih =>
    intro st e h
    cases st with
    | none =>
      simp only [substScan] at h
      by_cases hc : c = '{'
      · rw [if_pos hc] at h
        exact ih (some []) e h
      · rw [if_neg hc] at h
        cases hr : substScan subs rest none with
        | error e2 =>
          rw [hr] at h
          obtain rfl : e2 = e := by injection h
          exact ih none e2 hr
        | ok cs => rw [hr] at h; exact absurd h (by simp)
    | some acc =>
      simp only [substScan] at h
      by_cases hc : c = '}'
      · rw [if_pos hc] at h
        cases hlu : lookupSub subs (String.mk acc.reverse) with
        | none =>
          rw [hlu] at h
          exact ⟨String.mk acc.reverse, by injection h with h2; rw [h2]⟩
        | some v =>
          rw [hlu] at h
          cases hr : substScan subs rest none with
          | error e2 =>
            rw [hr] at h
            obtain rfl : e2 = e := by injection h
            exact ih none e2 hr
          | ok cs => rw [hr] at h; exact absurd h (by simp)
      · rw [if_neg hc] at h
        exact ih (some (c :: acc)) e h

/-- Scanning the characters of a complete key: with no closing brace in
`k`, the scan resolves the accumulated key at the first closing brace. -/
theorem substScan_key (subs : List (String × String)) (post : List Char) :
    ∀ (k acc : List Char), '}' ∉ k →
      substScan subs (k ++ '}' :: post) (some acc) =
        (match lookupSub subs (String.mk (acc.reverse ++ k)) with
         | none => .error (.templateError (String.mk (acc.reverse ++ k)))
         | some v =>
           (match substScan subs post none with
            | .error e => .error e
            | .ok cs => .ok (v.data ++ cs))) := by
  intro k
  induction k with
  | nil =>
    intro acc _
    simp [substScan]
  | cons c k2 ih =>
    intro acc hk
    have hc : c ≠ '}' := fun h => hk (by rw [h]; exact List.mem_cons_self _ _)
    have hk2 : '}' ∉ k2 := fun h => hk (List.mem_cons_of_mem _ h)
    rw [List.cons_append, show substScan subs (c :: (k2 ++ '}' :: post)) (some acc)
          = substScan subs (k2 ++ '}' :: post) (some (c :: acc)) from by
        simp [substScan, hc]]
    rw [ih (c :: acc) hk2]
    simp [List.reverse_cons, List.append_assoc]

/-- A key containing an opening brace never matches a substitution when
all supplied keys are brace-free. -/
theorem lookupSub_brace_none (subs : List (String × String)) (hb : KeysBraceFree subs)
    (ks : List Char) (h : '{' ∈ ks) : lookupSub subs (String.mk ks) = none := by
  unfold lookupSub
  cases hf : subs.find? (fun p => p.1 == String.mk ks) with
  | none => rfl
  | some p =>
    exfalso
    have hpred := List.find?_some hf
    have hmem := List.mem_of_find?_eq_some hf
    have heq : p.1 = String.mk ks := eq_of_beq hpred
    have h1 := (hb p hmem).1
    rw [heq] at h1
    exact h1 h

/-- Split a list at the first occurrence of a character. -/
theorem exists_first_split (c : Char) :
    ∀ (l : List Char), c ∈ l → ∃ q r, l = q ++ c :: r ∧ c ∉ q := by
  intro l
  induction l with
  | nil => intro h; exact absurd h (List.not_mem_nil c)
  | cons a l2 ih =>
    intro h
    by_cases ha : a = c
    · exact ⟨[], l2, by simp [ha], List.not_mem_nil c⟩
    · have h2 : c ∈ l2 := by
        rcases List.mem_cons.mp h with h3 | h3
        · exact absurd h3.symm ha
        · exact h3
      obtain ⟨q, r, hqr, hq⟩ := ih h2
      refine ⟨a :: q, r, by rw [List.cons_append, hqr], ?_⟩
      intro hc
      rcases List.mem_cons.mp hc with h3 | h3
      · exact ha h3.symm
      · exact hq h3

/-- A token containing a well-formed placeholder whose key was not
supplied makes the scanner fail with a `TemplateError`, whatever comes
before or after the placeholder. -/
theorem substScan_unresolved (subs : List (String × String)) (hb : KeysBraceFree subs) :
    ∀ (N : Nat) (pre : List Char), pre.length ≤ N → ∀ (k post : List Char),
      '{' ∉ k → '}' ∉ k → lookupSub subs (String.mk k) = none →
      ∃ s, substScan subs (pre ++ '{' :: (k ++ '}' :: post)) none =
        .error (.templateError s) := by
  intro N
  induction N with
  | zero =>
    intro pre hlen k post hk1 hk2 hunk
    have hnil : pre = [] := List.eq_nil_of_length_eq_zero (Nat.le_zero.mp hlen)
    subst hnil
    rw [List.nil_append,
      show substScan subs ('{' :: (k ++ '}' :: post)) none
          = substScan subs (k ++ '}' :: post) (some []) from by simp [substScan]]
    rw [substScan_key subs post k [] hk2]
    simp only [List.reverse_nil, List.nil_append]
    rw [hunk]
    exact ⟨String.mk k, rfl⟩
  | succ N ihN =>
    intro pre hlen k post hk1 hk2 hunk
    cases pre with
    | nil => exact ihN [] (Nat.zero_le N) k post hk1 hk2 hunk
    | cons c pre2 =>
      have hlen2 : pre2.length ≤ N := by
        simp only [List.length_cons] at hlen
        omega
      by_cases hc : c = '{'
      · subst hc
        rw [List.cons_append,
          show substScan subs ('{' :: (pre2 ++ '{' :: (k ++ '}' :: post))) none
              = substScan subs (pre2 ++ '{' :: (k ++ '}' :: post)) (some []) from by
            simp [substScan]]
        by_cases hcl : '}' ∈ pre2
        · obtain ⟨q, r, hqr, hq⟩ := exists_first_split '}' pre2 hcl
          subst hqr
          rw [show (q ++ '}' :: r) ++ '{' :: (k ++ '}' :: post)
                = q ++ '}' :: (r ++ '{' :: (k ++ '}' :: post)) from by
              simp [List.append_assoc]]
          rw [substScan_key subs (r ++ '{' :: (k ++ '}' :: post)) q [] hq]
          simp only [List.reverse_nil, List.nil_append]
          cases hlu : lookupSub subs (String.mk q) with
          | none => exact ⟨String.mk q, rfl⟩
          | some v =>
            have hrlen : r.length ≤ N := by
              simp only [List.length_append, List.length_cons] at hlen2
              omega
            obtain ⟨s, hs⟩ := ihN r hrlen k post hk1 hk2 hunk
            refine ⟨s, ?_⟩
            rw [hs]
        · rw [show pre2 ++ '{' :: (k ++ '}' :: post)
                = (pre2 ++ '{' :: k) ++ '}' :: post from by simp [List.append_assoc]]
          rw [substScan_key subs post (pre2 ++ '{' :: k) [] ?hnb]
          case hnb =>
            intro hmem
            rcases List.mem_append.mp hmem with h3 | h3
            · exact hcl h3
            · rcases List.mem_cons.mp h3 with h4 | h4
              · exact absurd h4 (by decide)
              · exact hk2 h4
          simp only [List.reverse_nil, List.nil_append]
          rw [lookupSub_brace_none subs hb (pre2 ++ '{' :: k)
            (List.mem_append.mpr (Or.inr (List.mem_cons_self _ _)))]
          exact ⟨String.mk (pre2 ++ '{' :: k), rfl⟩
      · rw [List.cons_append,
          show substScan subs (c :: (pre2 ++ '{' :: (k ++ '}' :: post))) none
              = (match substScan subs (pre2 ++ '{' :: (k ++ '}' :: post)) none with
                 | .error e => .error e
                 | .ok cs => .ok (c :: cs)) from by simp [substScan, hc]]
        obtain ⟨s, hs⟩ := ihN pre2 hlen2 k post hk1 hk2 hunk
        refine ⟨s, ?_⟩
        rw [hs]

/-- Token-level error shape. -/
theorem substToken_error_shape (subs : List (String × String)) (t : String) (e : DepError)
    (h : substToken subs t = .error e) : ∃ s, e = .templateError s := by
  unfold substToken at h
  cases hr : substScan subs t.data none with
  | error e2 =>
    rw [hr] at h
    obtain rfl : e2 = e := by injection h
    exact substScan_error_shape subs t.data none e2 hr
  | ok cs => rw [hr] at h; exact absurd h (by simp)

/-- If any token of the template fails to substitute, the whole argument
list fails with a `TemplateError`. -/
theorem substAll_unresolved (subs : List (String × String)) :
    ∀ (tmpl : List String) (t : String), t ∈ tmpl →
      (∃ s0, substToken subs t = .error (.templateError s0)) →
      ∃ s, substAll subs tmpl = .error (.templateError s) := by
  intro tmpl
  induction tmpl with
  | nil => intro t ht; exact absurd ht (List.not_mem_nil t)
  | cons a ts ih =>
    rintro t ht ⟨s0, hs0⟩
    simp only [substAll]
    cases hta : substToken subs a with
    | error e =>
      obtain ⟨s1, rfl⟩ := substToken_error_shape subs a e hta
      exact ⟨s1, rfl⟩
    | ok a2 =>
      have ht2 : t ∈ ts := by
        rcases List.mem_cons.mp ht with rfl | h3
        · rw [hs0] at hta; exact absurd hta (by simp)
        · exact h3
      obtain ⟨s, hs⟩ := ih t ht2 ⟨s0, hs0⟩
      refine ⟨s, ?_⟩
      rw [hs]

/-- Claim C7 (template fail-fast): a command template containing a
placeholder whose key is not among the supplied substitutions makes the
Command Executor return a `TemplateError`, and no subprocess is started
(zero subprocess invocations). -/
theorem template_failfast_c7 (subs : List (String × String)) (tmpl : List String)
    (ex : List String → Nat) (t : String) (pre k post : List Char)
    (ht : t ∈ tmpl) (hdec : t.data = pre ++ '{' :: (k ++ '}' :: post))
    (hk1 : '{' ∉ k) (hk2 : '}' ∉ k)
    (hb : KeysBraceFree subs) (hunk : lookupSub subs (String.mk k) = none) :
    (∃ s, (runCommand subs tmpl ex).outcome = .error (.templateError s)) ∧
      (runCommand subs tmpl ex).spawned = 0 := by
  have htok : ∃ s0, substToken subs t = .error (.templateError s0) := by
    obtain ⟨s0, hs⟩ :=
      substScan_unresolved subs hb pre.length pre (Nat.le_refl _) k post hk1 hk2 hunk
    refine ⟨s0, ?_⟩
    unfold substToken
    rw [hdec, hs]
  obtain ⟨s, hs⟩ := substAll_unresolved subs tmpl t ht htok
  unfold runCommand
  rw [hs]
  exact ⟨⟨s, rfl⟩, rfl⟩

/-- Witness for C7: the fixture template ending in the unresolved
placeholder `\x7bunknown_token\x7d` errors without spawning. -/
theorem template_failfast_c7_witness :
    (∃ s, (runCommand subsFix tmplUnknown (fun _ => 0)).outcome =
        .error (.templateError s)) ∧
      (runCommand subsFix tmplUnknown (fun _ => 0)).spawned = 0 :=
  template_failfast_c7 subsFix tmplUnknown (fun _ => 0)
    (String.mk ('{' :: ("unknown_token".data ++ [ '}' ]))) [] "unknown_token".data []
    (by decide) rfl (by decide) (by decide)
    (by
      show ∀ p, p ∈ subsFix → ('{' ∉ p.1.data ∧ '}' ∉ p.1.data)
      decide)
    (by decide)

/-! ## Check purity: claim C8 -/

/-- Claim C8: `Check` mutates nothing — with the host threaded
explicitly, the host coming out of a check is the host that went in, and
an immediately repeated `Check` on that unchanged host yields the
identical status-map result. -/
theorem check_idempotent_c8 (m : Manifest) (pid : String) (host : Host) :
    (CheckAllS m pid host).2 = host ∧
      (CheckAllS m pid (CheckAllS m pid host).2).1 = (CheckAllS m pid host).1 :=
  ⟨rfl, rfl⟩


/-! ## Dependency Graph Resolver: infrastructure lemmas -/

/-- Unfolding a successful dependency lookup. -/
theorem lookupDep_some (m : Manifest) (n : String) (d : Dependency)
    (h : lookupDep m n = some d) : d ∈ m ∧ d.name = n := by
  unfold lookupDep at h
  refine ⟨List.mem_of_find?_eq_some h, ?_⟩
  have hp := List.find?_some h
  exact eq_of_beq hp

/-- A name carried by some entry always resolves. -/
theorem lookupDep_isSome (m : Manifest) (n : String)
    (h : ∃ d2, d2 ∈ m ∧ d2.name = n) : ∃ d, lookupDep m n = some d := by
  unfold lookupDep
  obtain ⟨d2, hm, hn⟩ := h
  have hs : (m.find? (fun d => d.name == n)).isSome := by
    rw [List.find?_isSome]
    exact ⟨d2, hm, by simp [hn]⟩
  exact Option.isSome_iff_exists.mp hs

/-- With duplicate-free names, each entry resolves to itself. -/
theorem lookupDep_self (m : Manifest) (hnd : (m.map Dependency.name).Nodup)
    (d : Dependency) (hd : d ∈ m) : lookupDep m d.name = some d := by
  induction m with
  | nil => exact absurd hd (List.not_mem_nil d)
  | cons a m2 ih =>
    rw [List.map_cons, List.nodup_cons] at hnd
    rcases List.mem_cons.mp hd with rfl | h2
    · unfold lookupDep
      rw [List.find?_cons_of_pos]
      simp
    · have hne : a.name ≠ d.name := by
        intro he
        exact hnd.1 (he ▸ List.mem_map_of_mem Dependency.name h2)
      unfold lookupDep
      rw [List.find?_cons_of_neg]
      · exact ih hnd.2 h2
      · simp [hne]

/-- Position lemma: a member sits before the end. -/
theorem idx_lt_length (l : List String) (x : String) (h : x ∈ l) :
    idx l x < l.length := by
  induction l with
  | nil => exact absurd h (List.not_mem_nil x)
  | cons a r ih =>
    by_cases ha : a = x
    · simp [idx, ha]
    · have h2 : x ∈ r := by
        rcases List.mem_cons.mp h with h3 | h3
        · exact absurd h3.symm ha
        · exact h3
      simp only [idx, if_neg ha, List.length_cons]
      exact Nat.succ_lt_succ (ih h2)

/-- `idx` ignores a suffix when the element occurs in the prefix. -/
theorem idx_append_left (l1 l2 : List String) (x : String) (h : x ∈ l1) :
    idx (l1 ++ l2) x = idx l1 x := by
  induction l1 with
  | nil => exact absurd h (List.not_mem_nil x)
  | cons a r ih =>
    by_cases ha : a = x
    · simp [idx, ha]
    · have h2 : x ∈ r := by
        rcases List.mem_cons.mp h with h3 | h3
        · exact absurd h3.symm ha
        · exact h3
      simp only [List.cons_append, idx, if_neg ha, List.append_eq]
      rw [ih h2]

/-- `idx` of an element beyond a prefix it avoids. -/
theorem idx_append_right (l1 l2 : List String) (x : String) (h : x ∉ l1) :
    idx (l1 ++ l2) x = l1.length + idx l2 x := by
  induction l1 with
  | nil => simp [idx]
  | cons a r ih =>
    have ha : a ≠ x := fun he => h (he ▸ List.mem_cons_self a r)
    simp only [List.cons_append, idx, if_neg ha, List.length_cons, List.append_eq]
    rw [ih (fun h2 => h (List.mem_cons_of_mem a h2))]
    omega

/-- Walking up the gray stack follows prerequisite edges transitively. -/
theorem chain_reach (m : Manifest) :
    ∀ (l : List String) (x y : String),
      List.Chain' (fun a b => edgeOf m b a) (x :: l) → y ∈ l →
      Relation.TransGen (edgeOf m) y x := by
  intro l
  induction l with
  | nil => intro x y _ hy; exact absurd hy (List.not_mem_nil y)
  | cons z l2 ih =>
    intro x y hch hy
    have h1 : edgeOf m z x := (List.chain'_cons.mp hch).1
    have h2 : List.Chain' (fun a b => edgeOf m b a) (z :: l2) := (List.chain'_cons.mp hch).2
    rcases List.mem_cons.mp hy with rfl | h3
    · exact Relation.TransGen.single h1
    · exact Relation.TransGen.tail (ih z y h2 h3) h1

/-- A transitive path starts with an edge. -/
theorem transGen_exists_edge (m : Manifest) (a b : String)
    (h : Relation.TransGen (edgeOf m) a b) : ∃ c, edgeOf m a c := by
  induction h with
  | single h1 => exact ⟨_, h1⟩
  | tail _ _ ih => exact ih

/-- In a good duplicate-free order, a prerequisite appears strictly
before its dependent. -/
theorem goodOrder_edge_idx (m : Manifest) :
    ∀ (l : List String), GoodOrder m l → l.Nodup →
      ∀ (a b : String), edgeOf m a b → a ∈ l → b ∈ l ∧ idx l b < idx l a := by
  intro l hg
  induction hg with
  | nil => intro _ a b _ ha; exact absurd ha (List.not_mem_nil a)
  | snoc l0 n hg0 hpre ih =>
    intro hnd a b he ha
    rw [List.nodup_append] at hnd
    obtain ⟨hnd0, _, hdisj⟩ := hnd
    by_cases hal : a ∈ l0
    · obtain ⟨hb, hlt⟩ := ih hnd0 a b he hal
      refine ⟨List.mem_append.mpr (Or.inl hb), ?_⟩
      rw [idx_append_left l0 [n] b hb, idx_append_left l0 [n] a hal]
      exact hlt
    · have han : a = n := by
        rcases List.mem_append.mp ha with h3 | h3
        · exact absurd h3 hal
        · exact List.mem_singleton.mp h3
      subst han
      obtain ⟨d, hld, hbd⟩ := he
      have hb : b ∈ l0 := hpre d hld b hbd
      refine ⟨List.mem_append.mpr (Or.inl hb), ?_⟩
      rw [idx_append_left l0 [a] b hb, idx_append_right l0 [a] a hal]
      have h1 : idx l0 b < l0.length := idx_lt_length l0 b hb
      omega

/-- Transitive closure of `goodOrder_edge_idx`. -/
theorem goodOrder_transGen_idx (m : Manifest) (l : List String)
    (hg : GoodOrder m l) (hnd : l.Nodup) :
    ∀ (a b : String), Relation.TransGen (edgeOf m) a b → a ∈ l →
      b ∈ l ∧ idx l b < idx l a := by
  intro a b h
  induction h with
  | single h1 => intro ha; exact goodOrder_edge_idx m l hg hnd _ _ h1 ha
  | tail _ h2 ih =>
    intro ha
    obtain ⟨hb, hlt⟩ := ih ha
    obtain ⟨hc, hlt2⟩ := goodOrder_edge_idx m l hg hnd _ _ h2 hb
    exact ⟨hc, Nat.lt_trans hlt2 hlt⟩


/-! ## Dependency Graph Resolver: soundness of the traversal -/

/-- Sequential soundness: folding a visitor that preserves the invariant
and settles its node preserves the invariant over a node list. -/
theorem foldVisit_sound (m : Manifest)
    (v : String → List String → List String → Except DepError (List String))
    (Hv : ∀ n gray order order2, v n gray order = .ok order2 → Inv m gray order →
      Inv m gray order2 ∧ (∃ t, order2 = order ++ t) ∧ n ∈ order2) :
    ∀ (ns gray order order2 : List String),
      foldVisit v ns gray order = .ok order2 → Inv m gray order →
      Inv m gray order2 ∧ (∃ t, order2 = order ++ t) ∧ ∀ x, x ∈ ns → x ∈ order2 := by
  intro ns
  induction ns with
  | nil =>
    intro gray order order2 h hI
    obtain rfl : order = order2 := by injection h
    exact ⟨hI, ⟨[], by simp⟩, fun x hx => absurd hx (List.not_mem_nil x)⟩
  | cons p ps ih =>
    intro gray order order2 h hI
    simp only [foldVisit] at h
    cases hv : v p gray order with
    | error e => rw [hv] at h; exact absurd h (by simp)
    | ok o2 =>
      rw [hv] at h
      obtain ⟨hI2, ⟨t1, ht1⟩, hp⟩ := Hv p gray order o2 hv hI
      obtain ⟨hI3, ⟨t2, ht2⟩, hmem⟩ := ih gray o2 order2 h hI2
      refine ⟨hI3, ⟨t1 ++ t2, by rw [ht2, ht1, List.append_assoc]⟩, ?_⟩
      intro x hx
      rcases List.mem_cons.mp hx with rfl | h3
      · rw [ht2]; exact List.mem_append.mpr (Or.inl hp)
      · exact hmem x h3

/-- Soundness of a single visit: a successful visit extends the order,
keeps the invariant, and leaves its node in the order. -/
theorem visitD_sound (m : Manifest) :
    ∀ (fuel : Nat) (n : String) (gray order order2 : List String),
      visitD m fuel n gray order = .ok order2 → Inv m gray order →
      Inv m gray order2 ∧ (∃ t, order2 = order ++ t) ∧ n ∈ order2 := by
  intro fuel
  induction fuel with
  | zero =>
    intro n gray order order2 h hI
    simp only [visitD] at h
    by_cases hb : n ∈ order
    · rw [if_pos hb] at h
      obtain rfl : order = order2 := by injection h
      exact ⟨hI, ⟨[], by simp⟩, hb⟩
    · rw [if_neg hb] at h
      by_cases hg : n ∈ gray
      · rw [if_pos hg] at h; exact absurd h (by simp)
      · rw [if_neg hg] at h
        cases hl : lookupDep m n with
        | none => rw [hl] at h; exact absurd h (by simp)
        | some d => rw [hl] at h; exact absurd h (by simp)
  | succ f ihf =>
    intro n gray order order2 h hI
    simp only [visitD] at h
    by_cases hb : n ∈ order
    · rw [if_pos hb] at h
      obtain rfl : order = order2 := by injection h
      exact ⟨hI, ⟨[], by simp⟩, hb⟩
    · rw [if_neg hb] at h
      by_cases hg : n ∈ gray
      · rw [if_pos hg] at h; exact absurd h (by simp)
      · rw [if_neg hg] at h
        cases hl : lookupDep m n with
        | none => rw [hl] at h; exact absurd h (by simp)
        | some d =>
          rw [hl] at h
          have h2 : (match foldVisit (visitD m f) d.dependencies (n :: gray) order with
              | Except.error e => Except.error e
              | Except.ok o2 => Except.ok (o2 ++ [n])) = Except.ok order2 := h
          cases hf2 : foldVisit (visitD m f) d.dependencies (n :: gray) order with
          | error e => rw [hf2] at h2; exact absurd h2 (by simp)
          | ok o2 =>
            rw [hf2] at h2
            have h3 : (Except.ok (o2 ++ [n]) : Except DepError (List String)) = Except.ok order2 := h2
            obtain rfl : o2 ++ [n] = order2 := by injection h3
            obtain ⟨hdis, hnd, hgo, hnames⟩ := hI
            have hI1 : Inv m (n :: gray) order := by
              refine ⟨?_, hnd, hgo, hnames⟩
              intro g hgm
              rcases List.mem_cons.mp hgm with rfl | h3
              · exact hb
              · exact hdis g h3
            obtain ⟨⟨hdis2, hnd2, hgo2, hnames2⟩, ⟨t1, ht1⟩, hsub⟩ :=
              foldVisit_sound m (visitD m f) ihf d.dependencies (n :: gray) order o2 hf2 hI1
            have hno2 : n ∉ o2 := hdis2 n (List.mem_cons_self n gray)
            refine ⟨⟨?_, ?_, ?_, ?_⟩, ⟨t1 ++ [n], by rw [ht1, List.append_assoc]⟩,
              List.mem_append.mpr (Or.inr (List.mem_singleton.mpr rfl))⟩
            · intro g hgm hmem
              rcases List.mem_append.mp hmem with h3 | h3
              · exact hdis2 g (List.mem_cons_of_mem n hgm) h3
              · have h4 : g = n := List.mem_singleton.mp h3
                rw [h4] at hgm
                exact hg hgm
            · rw [List.nodup_append]
              refine ⟨hnd2, List.nodup_singleton n, ?_⟩
              intro a ha hb2
              have h4 : a = n := List.mem_singleton.mp hb2
              rw [h4] at ha
              exact hno2 ha
            · refine GoodOrder.snoc o2 n hgo2 ?_
              intro d2 hd2 p hp
              rw [hl] at hd2
              obtain rfl : d = d2 := by injection hd2
              exact hsub p hp
            · intro x hx
              rcases List.mem_append.mp hx with h3 | h3
              · exact hnames2 x h3
              · have h4 : x = n := List.mem_singleton.mp h3
                obtain ⟨hdm, hdn⟩ := lookupDep_some m n d hl
                exact ⟨d, hdm, by rw [hdn, h4]⟩

/-- Soundness of `Order`: a successful order is duplicate-free, good,
total over the manifest, and made of manifest names. -/
theorem Order_sound (m : Manifest) (names : List String) (h : Order m = .ok names) :
    names.Nodup ∧ GoodOrder m names ∧ (∀ d, d ∈ m → d.name ∈ names) ∧
      (∀ x, x ∈ names → ∃ d, d ∈ m ∧ d.name = x) := by
  unfold Order at h
  have hI : Inv m [] [] := by
    refine ⟨?_, List.nodup_nil, GoodOrder.nil, ?_⟩
    · intro g hg; exact absurd hg (List.not_mem_nil g)
    · intro x hx; exact absurd hx (List.not_mem_nil x)
  obtain ⟨⟨_, hnd, hgo, hnames⟩, _, hmem⟩ :=
    foldVisit_sound m (visitD m (m.length + 1)) (visitD_sound m (m.length + 1))
      (m.map (fun d => d.name)) [] [] names h hI
  exact ⟨hnd, hgo, fun d hd => hmem d.name (List.mem_map_of_mem _ hd), hnames⟩

/-- A successful order excludes cycles in the prerequisite graph. -/
theorem Order_ok_no_cycle (m : Manifest) (names : List String)
    (h : Order m = .ok names) : ¬ HasCycle m := by
  rintro ⟨x, hx⟩
  obtain ⟨hnd, hgo, htot, _⟩ := Order_sound m names h
  obtain ⟨c, hc⟩ := transGen_exists_edge m x x hx
  obtain ⟨d, hld, _⟩ := hc
  have hxm : x ∈ names := by
    obtain ⟨hdm, hdn⟩ := lookupDep_some m x d hld
    have h2 := htot d hdm
    rw [hdn] at h2
    exact h2
  obtain ⟨_, hlt⟩ := goodOrder_transGen_idx m names hgo hnd x x hx hxm
  exact Nat.lt_irrefl _ hlt


/-! ## Dependency Graph Resolver: completeness of the traversal -/

/-- Folding a visitor that always succeeds on nodes satisfying `P`
succeeds on any list of such nodes. -/
theorem foldVisit_ok
    (v : String → List String → List String → Except DepError (List String))
    (gray : List String) (P : String → Prop)
    (Hv : ∀ n order, P n → ∃ o2, v n gray order = .ok o2) :
    ∀ (ns order : List String), (∀ x, x ∈ ns → P x) →
      ∃ o2, foldVisit v ns gray order = .ok o2 := by
  intro ns
  induction ns with
  | nil => intro order _; exact ⟨order, rfl⟩
  | cons p ps ih =>
    intro order hP
    obtain ⟨o2, ho⟩ := Hv p order (hP p (List.mem_cons_self p ps))
    obtain ⟨o3, ho3⟩ := ih o2 (fun x hx => hP x (List.mem_cons_of_mem p hx))
    refine ⟨o3, ?_⟩
    simp only [foldVisit]
    rw [ho]
    exact ho3

/-- Folding a visitor that either succeeds or reports a cycle on nodes
satisfying `P` does the same over a list of such nodes. -/
theorem foldVisit_okc
    (v : String → List String → List String → Except DepError (List String))
    (gray : List String) (P : String → Prop)
    (Hv : ∀ n order, P n → (∃ o2, v n gray order = .ok o2) ∨
        (∃ mem, v n gray order = .error (.cyclicDependency mem))) :
    ∀ (ns order : List String), (∀ x, x ∈ ns → P x) →
      (∃ o2, foldVisit v ns gray order = .ok o2) ∨
        (∃ mem, foldVisit v ns gray order = .error (.cyclicDependency mem)) := by
  intro ns
  induction ns with
  | nil => intro order _; exact Or.inl ⟨order, rfl⟩
  | cons p ps ih =>
    intro order hP
    rcases Hv p order (hP p (List.mem_cons_self p ps)) with ⟨o2, ho⟩ | ⟨mem, he⟩
    · rcases ih o2 (fun x hx => hP x (List.mem_cons_of_mem p hx)) with ⟨o3, ho3⟩ | ⟨mem, he3⟩
      · refine Or.inl ⟨o3, ?_⟩
        simp only [foldVisit]
        rw [ho]
        exact ho3
      · refine Or.inr ⟨mem, ?_⟩
        simp only [foldVisit]
        rw [ho]
        exact he3
    · refine Or.inr ⟨mem, ?_⟩
      simp only [foldVisit]
      rw [he]

/-- With known names and enough fuel, a visit either succeeds or reports
a cycle (`UnknownDependency` and fuel exhaustion cannot occur). -/
theorem visitD_okc (m : Manifest) (hknown : NamesKnown m) :
    ∀ (fuel : Nat) (n : String) (gray order : List String),
      (∃ d, lookupDep m n = some d) →
      gray.Nodup → (∀ g, g ∈ gray → g ∈ m.map Dependency.name) →
      m.length + 1 ≤ fuel + gray.length →
      (∃ o2, visitD m fuel n gray order = .ok o2) ∨
        (∃ mem, visitD m fuel n gray order = .error (.cyclicDependency mem)) := by
  intro fuel
  induction fuel with
  | zero =>
    intro n gray order _ hnd hsub hfuel
    exfalso
    have h1 : gray.length ≤ (m.map Dependency.name).length :=
      (List.subperm_of_subset hnd (fun g hg => hsub g hg)).length_le
    rw [List.length_map] at h1
    omega
  | succ f ihf =>
    intro n gray order hres hnd hsub hfuel
    by_cases hb : n ∈ order
    · refine Or.inl ⟨order, ?_⟩
      simp only [visitD]
      rw [if_pos hb]
    · by_cases hg : n ∈ gray
      · refine Or.inr ⟨cycleMembers n gray, ?_⟩
        simp only [visitD]
        rw [if_neg hb, if_pos hg]
      · obtain ⟨d, hld⟩ := hres
        have hnames_n : n ∈ m.map Dependency.name := by
          obtain ⟨hdm, hdn⟩ := lookupDep_some m n d hld
          rw [← hdn]
          exact List.mem_map_of_mem _ hdm
        have hfold := foldVisit_okc (visitD m f) (n :: gray)
          (fun p => ∃ d2, lookupDep m p = some d2)
          (fun p order2 hp => ihf p (n :: gray) order2 hp
            (List.nodup_cons.mpr ⟨hg, hnd⟩)
            (fun g hgm => by
              rcases List.mem_cons.mp hgm with rfl | h3
              · exact hnames_n
              · exact hsub g h3)
            (by simp only [List.length_cons]; omega))
          d.dependencies order
          (fun p hp => by
            obtain ⟨hdm, _⟩ := lookupDep_some m n d hld
            exact lookupDep_isSome m p (hknown d hdm p hp))
        rcases hfold with ⟨o2, ho⟩ | ⟨mem, he⟩
        · refine Or.inl ⟨o2 ++ [n], ?_⟩
          simp only [visitD]
          rw [if_neg hb, if_neg hg, hld]
          have hred : (match foldVisit (visitD m f) d.dependencies (n :: gray) order with
              | Except.error e => Except.error e
              | Except.ok o3 => Except.ok (o3 ++ [n])) =
                (Except.ok (o2 ++ [n]) : Except DepError (List String)) := by
            rw [ho]
          exact hred
        · refine Or.inr ⟨mem, ?_⟩
          simp only [visitD]
          rw [if_neg hb, if_neg hg, hld]
          have hred : (match foldVisit (visitD m f) d.dependencies (n :: gray) order with
              | Except.error e => Except.error e
              | Except.ok o3 => Except.ok (o3 ++ [n])) =
                (Except.error (DepError.cyclicDependency mem) : Except DepError (List String)) := by
            rw [he]
          exact hred

/-- With known names, no cycles, a resolvable node and a gray stack that
is an edge chain, a visit succeeds outright. -/
theorem visitD_complete (m : Manifest) (hknown : NamesKnown m) (hacyc : ¬ HasCycle m) :
    ∀ (fuel : Nat) (n : String) (gray order : List String),
      (∃ d, lookupDep m n = some d) →
      List.Chain' (fun a b => edgeOf m b a) (n :: gray) →
      gray.Nodup → (∀ g, g ∈ gray → g ∈ m.map Dependency.name) →
      m.length + 1 ≤ fuel + gray.length →
      ∃ o2, visitD m fuel n gray order = .ok o2 := by
  intro fuel
  induction fuel with
  | zero =>
    intro n gray order _ _ hnd hsub hfuel
    exfalso
    have h1 : gray.length ≤ (m.map Dependency.name).length :=
      (List.subperm_of_subset hnd (fun g hg => hsub g hg)).length_le
    rw [List.length_map] at h1
    omega
  | succ f ihf =>
    intro n gray order hres hch hnd hsub hfuel
    by_cases hb : n ∈ order
    · refine ⟨order, ?_⟩
      simp only [visitD]
      rw [if_pos hb]
    · have hg : n ∉ gray := by
        intro hgm
        exact hacyc ⟨n, chain_reach m gray n n hch hgm⟩
      obtain ⟨d, hld⟩ := hres
      have hnames_n : n ∈ m.map Dependency.name := by
        obtain ⟨hdm, hdn⟩ := lookupDep_some m n d hld
        rw [← hdn]
        exact List.mem_map_of_mem _ hdm
      have hdm := (lookupDep_some m n d hld).1
      obtain ⟨o2, ho⟩ := foldVisit_ok (visitD m f) (n :: gray)
        (fun p => (∃ d2, lookupDep m p = some d2) ∧ edgeOf m n p)
        (fun p order2 hp => ihf p (n :: gray) order2 hp.1
          (List.chain'_cons.mpr ⟨hp.2, hch⟩)
          (List.nodup_cons.mpr ⟨hg, hnd⟩)
          (fun g hgm => by
            rcases List.mem_cons.mp hgm with rfl | h3
            · exact hnames_n
            · exact hsub g h3)
          (by simp only [List.length_cons]; omega))
        d.dependencies order
        (fun p hp => ⟨lookupDep_isSome m p (hknown d hdm p hp), ⟨d, hld, hp⟩⟩)
      refine ⟨o2 ++ [n], ?_⟩
      simp only [visitD]
      rw [if_neg hb, if_neg hg, hld]
      have hred : (match foldVisit (visitD m f) d.dependencies (n :: gray) order with
          | Except.error e => Except.error e
          | Except.ok o3 => Except.ok (o3 ++ [n])) =
            (Except.ok (o2 ++ [n]) : Except DepError (List String)) := by
        rw [ho]
      exact hred

/-- `Order` on a manifest with known names either succeeds or reports a
cycle. -/
theorem Order_okc (m : Manifest) (hknown : NamesKnown m) :
    (∃ names, Order m = .ok names) ∨
      (∃ mem, Order m = .error (.cyclicDependency mem)) := by
  unfold Order
  exact foldVisit_okc (visitD m (m.length + 1)) []
    (fun p => ∃ d2, lookupDep m p = some d2)
    (fun p order hp => visitD_okc m hknown (m.length + 1) p [] order hp
      List.nodup_nil (fun g hg => absurd hg (List.not_mem_nil g)) (by simp))
    (m.map (fun d => d.name)) []
    (fun p hp => by
      obtain ⟨d, hdm, hdn⟩ := List.mem_map.mp hp
      exact lookupDep_isSome m p ⟨d, hdm, hdn⟩)

/-- `Order` succeeds on every acyclic manifest with known names. -/
theorem Order_complete (m : Manifest) (hknown : NamesKnown m) (hacyc : ¬ HasCycle m) :
    ∃ names, Order m = .ok names := by
  unfold Order
  exact foldVisit_ok (visitD m (m.length + 1)) []
    (fun p => ∃ d2, lookupDep m p = some d2)
    (fun p order hp => visitD_complete m hknown hacyc (m.length + 1) p [] order hp
      (List.chain'_singleton p) List.nodup_nil
      (fun g hg => absurd hg (List.not_mem_nil g)) (by simp))
    (m.map (fun d => d.name)) []
    (fun p hp => by
      obtain ⟨d, hdm, hdn⟩ := List.mem_map.mp hp
      exact lookupDep_isSome m p ⟨d, hdm, hdn⟩)


/-! ## Dependency Graph Resolver: claims C3 and C4 -/

/-- Claim C3: for every manifest with unique names, no cycles and no
unknown prerequisite names, `Order` succeeds and returns a topological
order — every dependency appears after all its listed prerequisites (in
particular, if A lists B as a prerequisite, B is placed before A). -/
theorem order_topological_c3 (m : Manifest)
    (hnodup : (m.map Dependency.name).Nodup)
    (hknown : NamesKnown m) (hacyc : ¬ HasCycle m) :
    ∃ names, Order m = .ok names ∧
      ∀ d, d ∈ m → d.name ∈ names ∧
        ∀ p, p ∈ d.dependencies → idx names p < idx names d.name := by
  obtain ⟨names, hok⟩ := Order_complete m hknown hacyc
  obtain ⟨hnd, hgo, htot, _⟩ := Order_sound m names hok
  refine ⟨names, hok, ?_⟩
  intro d hd
  refine ⟨htot d hd, ?_⟩
  intro p hp
  have hedge : edgeOf m d.name p := ⟨d, lookupDep_self m hnodup d hd, hp⟩
  obtain ⟨_, hlt⟩ := goodOrder_edge_idx m names hgo hnd d.name p hedge (htot d hd)
  exact hlt

/-- The fixture manifest `mfAB` has no prerequisite cycle. -/
theorem mfAB_no_cycle : ¬ HasCycle mfAB := by
  have hedge : ∀ a b, edgeOf mfAB a b → a = "A" ∧ b = "B" := by
    rintro a b ⟨d, hld, hbd⟩
    obtain ⟨hdm, hdn⟩ := lookupDep_some mfAB a d hld
    rcases List.mem_cons.mp hdm with rfl | h2
    · refine ⟨by rw [← hdn]; rfl, ?_⟩
      have hb2 : b ∈ ["B"] := hbd
      exact List.mem_singleton.mp hb2
    · rcases List.mem_cons.mp h2 with rfl | h3
      · exact absurd (show b ∈ ([] : List String) from hbd) (List.not_mem_nil b)
      · exact absurd h3 (List.not_mem_nil d)
  have htg : ∀ a b, Relation.TransGen (edgeOf mfAB) a b → a = "A" ∧ b = "B" := by
    intro a b h
    induction h with
    | single h1 => exact hedge _ _ h1
    | tail _ h2 ih =>
      obtain ⟨ha, hb⟩ := ih
      obtain ⟨hb2, _⟩ := hedge _ _ h2
      rw [hb] at hb2
      exact absurd hb2 (by decide)
  rintro ⟨x, hx⟩
  obtain ⟨h1, h2⟩ := htg x x hx
  rw [h1] at h2
  exact absurd h2 (by decide)

/-- Witness for C3 on the fixture manifest `mfAB` (A requires B). -/
theorem order_topological_c3_witness :
    ∃ names, Order mfAB = .ok names ∧
      ∀ d, d ∈ mfAB → d.name ∈ names ∧
        ∀ p, p ∈ d.dependencies → idx names p < idx names d.name :=
  order_topological_c3 mfAB (by decide)
    (by
      show ∀ d, d ∈ mfAB → ∀ p, p ∈ d.dependencies → ∃ d2, d2 ∈ mfAB ∧ d2.name = p
      decide)
    mfAB_no_cycle

/-- Claim C4 (amended with the known-names proviso): on a manifest
without unknown prerequisite names whose prerequisite graph has a cycle,
`Order` returns `CyclicDependency`, and both `CheckAll` and `EnsureAll`
abort with that run-fatal error before producing any statuses. -/
theorem cycle_runfatal_c4 (m : Manifest) (pid : String) (host : Host)
    (hknown : NamesKnown m) (hcyc : HasCycle m) :
    ∃ members, Order m = .error (.cyclicDependency members) ∧
      CheckAll m pid host = .error (.cyclicDependency members) ∧
      EnsureAll m pid host = .error (.cyclicDependency members) := by
  rcases Order_okc m hknown with ⟨names, hok⟩ | ⟨mem, herr⟩
  · exact absurd hcyc (Order_ok_no_cycle m names hok)
  · refine ⟨mem, herr, ?_, ?_⟩
    · unfold CheckAll
      rw [herr]
    · unfold EnsureAll
      rw [herr]

/-- Witness for (amended) C4 on the two-cycle manifest `mfCycle`. -/
theorem cycle_runfatal_c4_witness :
    ∃ members, Order mfCycle = .error (.cyclicDependency members) ∧
      CheckAll mfCycle "linux" hostFailB = .error (.cyclicDependency members) ∧
      EnsureAll mfCycle "linux" hostFailB = .error (.cyclicDependency members) := by
  have eAB : edgeOf mfCycle "A" "B" := ⟨mkDep "A" "1.0.0" ["B"], by decide, by decide⟩
  have eBA : edgeOf mfCycle "B" "A" := ⟨mkDep "B" "1.0.0" ["A"], by decide, by decide⟩
  exact cycle_runfatal_c4 mfCycle "linux" hostFailB
    (by
      show ∀ d, d ∈ mfCycle → ∀ p, p ∈ d.dependencies → ∃ d2, d2 ∈ mfCycle ∧ d2.name = p
      decide)
    ⟨"A", Relation.TransGen.head eAB (Relation.TransGen.single eBA)⟩

/-- Counterexample to C4 as stated: `mfCycleUnknown` contains the A/B
cycle, yet `Order` reports `UnknownDependency` (for the undefined
prerequisite X, reached first), not `CyclicDependency`. -/
theorem cycle_runfatal_c4_counterexample :
    HasCycle mfCycleUnknown ∧
      Order mfCycleUnknown = .error (.unknownDependency "X") := by
  constructor
  · have eAB : edgeOf mfCycleUnknown "A" "B" :=
      ⟨mkDep "A" "1.0.0" ["B"], by decide, by decide⟩
    have eBA : edgeOf mfCycleUnknown "B" "A" :=
      ⟨mkDep "B" "1.0.0" ["A"], by decide, by decide⟩
    exact ⟨"A", Relation.TransGen.head eAB (Relation.TransGen.single eBA)⟩
  · decide


/-! ## Status Tracker / Manager: totality (claim C5) -/

/-- Each ensure step appends exactly one status entry, keyed by the
processed name. -/
theorem ensureStep_sts_shape (m : Manifest) (pid : String) (st : EnsureState) (n : String) :
    ∃ s, (ensureStep m pid st n).sts = st.sts ++ [(n, s)] := by
  unfold ensureStep
  cases hl : lookupDep m n with
  | none => exact ⟨failedStatus (.unknownDependency n), rfl⟩
  | some d =>
    dsimp only
    split
    · exact ⟨_, rfl⟩
    · split
      · exact ⟨_, rfl⟩
      · split
        · exact ⟨_, rfl⟩
        · split
          · exact ⟨_, rfl⟩
          · exact ⟨_, rfl⟩

/-- The keys of an `ensureGo` run are the initial keys followed by the
processed names, in order. -/
theorem ensureGo_sts_keys (m : Manifest) (pid : String) :
    ∀ (ns : List String) (st : EnsureState),
      ((ensureGo m pid ns st).sts).map Prod.fst = (st.sts.map Prod.fst) ++ ns := by
  intro ns
  induction ns with
  | nil => intro st; simp [ensureGo]
  | cons n ns2 ih =>
    intro st
    simp only [ensureGo]
    rw [ih (ensureStep m pid st n)]
    obtain ⟨s, hs⟩ := ensureStep_sts_shape m pid st n
    rw [hs]
    simp

/-- Claim C5: on every manifest the Graph Resolver accepts, both
`CheckAll` and `EnsureAll` return a status map holding exactly one
entry for every dependency of the manifest — never a partial map. -/
theorem status_total_c5 (m : Manifest) (pid : String) (host : Host) (names : List String)
    (h : Order m = .ok names) :
    (∃ sts, CheckAll m pid host = .ok sts ∧
      ∀ d, d ∈ m → (sts.map Prod.fst).count d.name = 1) ∧
    (∃ st, EnsureAll m pid host = .ok st ∧
      ∀ d, d ∈ m → (st.sts.map Prod.fst).count d.name = 1) := by
  obtain ⟨hnd, _, htot, _⟩ := Order_sound m names h
  have hcount : ∀ d, d ∈ m → names.count d.name = 1 :=
    fun d hd => List.count_eq_one_of_mem hnd (htot d hd)
  constructor
  · have hc : CheckAll m pid host = .ok (names.map (fun n =>
        (n, match lookupDep m n with
            | some d2 => checkOne host pid d2
            | none => failedStatus (.unknownDependency n)))) := by
      unfold CheckAll
      rw [h]
    refine ⟨_, hc, ?_⟩
    intro d hd
    rw [List.map_map]
    have hkeys : (Prod.fst ∘ fun n => ((n, match lookupDep m n with
        | some d2 => checkOne host pid d2
        | none => failedStatus (.unknownDependency n)) : String × DependencyStatus)) =
          fun n => n := by
      funext n
      rfl
    rw [hkeys]
    have hmapid : names.map (fun n => n) = names := List.map_id names
    rw [hmapid]
    exact hcount d hd
  · have he : EnsureAll m pid host = .ok (ensureGo m pid names ⟨[], host, []⟩) := by
      unfold EnsureAll
      rw [h]
    refine ⟨_, he, ?_⟩
    intro d hd
    rw [ensureGo_sts_keys m pid names ⟨[], host, []⟩]
    simp only [List.map_nil, List.nil_append]
    exact hcount d hd

/-- Witness for C5 on the fixture manifest `mfAB`. -/
theorem status_total_c5_witness :
    (∃ sts, CheckAll mfAB "linux" hostFailB = .ok sts ∧
      ∀ d, d ∈ mfAB → (sts.map Prod.fst).count d.name = 1) ∧
    (∃ st, EnsureAll mfAB "linux" hostFailB = .ok st ∧
      ∀ d, d ∈ mfAB → (st.sts.map Prod.fst).count d.name = 1) :=
  status_total_c5 mfAB "linux" hostFailB ["B", "A"] (by decide)


/-! ## Status Tracker / Manager: prerequisite short-circuit (claim C6) -/

/-- `ensureGo` over a concatenation runs the phases in sequence. -/
theorem ensureGo_append (m : Manifest) (pid : String) :
    ∀ (l1 l2 : List String) (st : EnsureState),
      ensureGo m pid (l1 ++ l2) st = ensureGo m pid l2 (ensureGo m pid l1 st) := by
  intro l1
  induction l1 with
  | nil => intro l2 st; rfl
  | cons n l1b ih =>
    intro l2 st
    simp only [List.cons_append, ensureGo]
    exact ih l2 (ensureStep m pid st n)

/-- An `ensureGo` run only appends to the status map. -/
theorem ensureGo_sts_prefix (m : Manifest) (pid : String) :
    ∀ (ns : List String) (st : EnsureState),
      ∃ t, (ensureGo m pid ns st).sts = st.sts ++ t := by
  intro ns
  induction ns with
  | nil => intro st; exact ⟨[], by simp [ensureGo]⟩
  | cons n ns2 ih =>
    intro st
    obtain ⟨s, hs⟩ := ensureStep_sts_shape m pid st n
    obtain ⟨t2, ht2⟩ := ih (ensureStep m pid st n)
    refine ⟨[(n, s)] ++ t2, ?_⟩
    simp only [ensureGo]
    rw [ht2, hs, List.append_assoc]

/-- Each ensure step logs either nothing or exactly its own name. -/
theorem ensureStep_log_shape (m : Manifest) (pid : String) (st : EnsureState) (n : String) :
    (ensureStep m pid st n).log = st.log ∨ (ensureStep m pid st n).log = st.log ++ [n] := by
  unfold ensureStep
  cases hl : lookupDep m n with
  | none => exact Or.inl rfl
  | some d =>
    dsimp only
    split
    · exact Or.inl rfl
    · split
      · exact Or.inl rfl
      · split
        · exact Or.inl rfl
        · split
          · exact Or.inr rfl
          · exact Or.inr rfl

/-- The log grows by at most one occurrence per processed name. -/
theorem ensureGo_log_shape (m : Manifest) (pid : String) :
    ∀ (ns : List String) (st : EnsureState),
      ∃ t, (ensureGo m pid ns st).log = st.log ++ t ∧
        ∀ x, t.count x ≤ ns.count x := by
  intro ns
  induction ns with
  | nil =>
    intro st
    exact ⟨[], by simp [ensureGo], fun x => Nat.le_refl 0⟩
  | cons n ns2 ih =>
    intro st
    obtain ⟨t2, ht2, hc2⟩ := ih (ensureStep m pid st n)
    rcases ensureStep_log_shape m pid st n with hlog | hlog
    · refine ⟨t2, ?_, ?_⟩
      · simp only [ensureGo]
        rw [ht2, hlog]
      · intro x
        calc t2.count x ≤ ns2.count x := hc2 x
          _ ≤ (n :: ns2).count x := by
              rw [List.count_cons]
              omega
    · refine ⟨[n] ++ t2, ?_, ?_⟩
      · simp only [ensureGo]
        rw [ht2, hlog, List.append_assoc]
      · intro x
        have h1 := hc2 x
        rw [List.count_append, show (n :: ns2) = [n] ++ ns2 from rfl, List.count_append]
        omega

/-- An ensure step touches the detected-version table only at its own
name. -/
theorem ensureStep_host_stable (m : Manifest) (pid : String) (st : EnsureState)
    (n x : String) (hx : x ≠ n) :
    (ensureStep m pid st n).host.installedVersion x = st.host.installedVersion x := by
  unfold ensureStep
  cases hl : lookupDep m n with
  | none => rfl
  | some d =>
    dsimp only
    split
    · rfl
    · split
      · rfl
      · split
        · rfl
        · split
          · show (installHost st.host n d.version.required).installedVersion x =
              st.host.installedVersion x
            unfold installHost
            dsimp only
            rw [if_neg hx]
          · rfl

/-- Unprocessed names keep their detected version across a run. -/
theorem ensureGo_host_stable (m : Manifest) (pid : String) :
    ∀ (ns : List String) (st : EnsureState) (x : String), x ∉ ns →
      (ensureGo m pid ns st).host.installedVersion x = st.host.installedVersion x := by
  intro ns
  induction ns with
  | nil => intro st x _; rfl
  | cons n ns2 ih =>
    intro st x hx
    have hx1 : x ≠ n := fun he => hx (he ▸ List.mem_cons_self n ns2)
    have hx2 : x ∉ ns2 := fun he => hx (List.mem_cons_of_mem n he)
    simp only [ensureGo]
    rw [ih (ensureStep m pid st n) x hx2]
    exact ensureStep_host_stable m pid st n x hx1

/-- A status already recorded survives appends. -/
theorem lookupStatus_append_some (sts t : StatusMap) (x : String) (s : DependencyStatus)
    (h : lookupStatus sts x = some s) : lookupStatus (sts ++ t) x = some s := by
  induction sts with
  | nil => exact absurd h (by simp [lookupStatus])
  | cons q sts2 ih =>
    unfold lookupStatus at h ⊢
    rw [List.cons_append]
    simp only [List.find?] at h ⊢
    cases hp : (q.1 == x) with
    | true => rw [hp] at h; exact h
    | false => rw [hp] at h; exact ih h

/-- A name outside the keys has no status. -/
theorem lookupStatus_none_of_not_key (sts : StatusMap) (x : String)
    (h : x ∉ sts.map Prod.fst) : lookupStatus sts x = none := by
  unfold lookupStatus
  have hf : sts.find? (fun p => p.1 == x) = none := by
    rw [List.find?_eq_none]
    intro q hq hpred
    exact h (by
      have : q.1 = x := eq_of_beq hpred
      rw [← this]
      exact List.mem_map_of_mem Prod.fst hq)
  rw [hf]
  rfl

/-- Looking up past a prefix without the key. -/
theorem lookupStatus_append_none (sts t : StatusMap) (x : String)
    (h : lookupStatus sts x = none) :
    lookupStatus (sts ++ t) x = lookupStatus t x := by
  induction sts with
  | nil => rfl
  | cons q sts2 ih =>
    unfold lookupStatus at h ⊢
    rw [List.cons_append]
    simp only [List.find?] at h ⊢
    cases hp : (q.1 == x) with
    | true => rw [hp] at h; exact absurd h (by simp)
    | false => rw [hp] at h; exact ih h

/-- A key present in the map has a status. -/
theorem lookupStatus_isSome_of_key (sts : StatusMap) (x : String)
    (h : x ∈ sts.map Prod.fst) : ∃ s, lookupStatus sts x = some s := by
  obtain ⟨q, hq, hqx⟩ := List.mem_map.mp h
  unfold lookupStatus
  have hf : (sts.find? (fun p => p.1 == x)).isSome := by
    rw [List.find?_isSome]
    exact ⟨q, hq, by simp [hqx]⟩
  obtain ⟨q2, hq2⟩ := Option.isSome_iff_exists.mp hf
  exact ⟨q2.2, by rw [hq2]; rfl⟩

/-- The errors a pure check can carry: none, unsupported platform, or an
invalid version format — never `CommandFailed`. -/
theorem checkOne_error_shape (host : Host) (pid : String) (d : Dependency) :
    (checkOne host pid d).error = none ∨
      (∃ a b, (checkOne host pid d).error = some (.unsupportedPlatform a b)) ∨
      (∃ s2, (checkOne host pid d).error = some (.invalidVersionFormat s2)) := by
  unfold checkOne
  cases hp : lookupPlatform d pid with
  | none => exact Or.inr (Or.inl ⟨d.name, pid, rfl⟩)
  | some pc =>
    dsimp only
    unfold classify
    cases hv : host.installedVersion d.name with
    | none => exact Or.inl rfl
    | some cs =>
      dsimp only
      cases hpv : parseVersion cs with
      | none => exact Or.inr (Or.inr ⟨cs, rfl⟩)
      | some cur =>
        cases hpr : parseVersion d.version.required with
        | none => exact Or.inr (Or.inr ⟨d.version.required, rfl⟩)
        | some req => exact Or.inl rfl


/-- A dependency that needs install (platform supported, nothing
detected) whose prerequisite scan finds a failed prerequisite is marked
`PrerequisiteFailed` without its install command being invoked. -/
theorem ensureStep_blocked (m : Manifest) (pid : String) (st : EnsureState)
    (A : Dependency) (c : String)
    (hA : lookupDep m A.name = some A)
    (hplat : (lookupPlatform A pid).isSome)
    (hnone : st.host.installedVersion A.name = none)
    (hfp : firstFailedPrereq st.sts A.dependencies = some c) :
    (ensureStep m pid st A.name).sts =
      st.sts ++ [(A.name, failedStatus (.prerequisiteFailed c))] ∧
    (ensureStep m pid st A.name).log = st.log := by
  have hc : checkOne st.host pid A =
      { installed := false, currentVersion := "", requiredUpdate := UpdateKind.NotInstalled,
        compatible := false, error := none } := by
    unfold checkOne
    obtain ⟨pc, hpc⟩ := Option.isSome_iff_exists.mp hplat
    rw [hpc, hnone]
    rfl
  have hstep : ensureStep m pid st A.name =
      { st with sts := st.sts ++ [(A.name, failedStatus (.prerequisiteFailed c))] } := by
    unfold ensureStep
    rw [hA]
    dsimp only
    rw [hc]
    dsimp only
    rw [hfp]
    rfl
  rw [hstep]
  exact ⟨rfl, rfl⟩

/-- Every ensure step appends one entry for its node; when that entry
carries a `CommandFailed` error, the install command was invoked (the
node was logged). -/
theorem ensureStep_cases (m : Manifest) (pid : String) (st : EnsureState) (n : String) :
    ∃ s, (ensureStep m pid st n).sts = st.sts ++ [(n, s)] ∧
      ((∃ e, s.error = some (.commandFailed e)) →
        (ensureStep m pid st n).log = st.log ++ [n]) := by
  unfold ensureStep
  cases hl : lookupDep m n with
  | none =>
    refine ⟨failedStatus (.unknownDependency n), rfl, ?_⟩
    rintro ⟨e, he⟩
    exact absurd he (by simp [failedStatus])
  | some d =>
    dsimp only
    split
    · refine ⟨_, rfl, ?_⟩
      rintro ⟨e, he⟩
      rcases checkOne_error_shape st.host pid d with h0 | ⟨a, b, h0⟩ | ⟨s2, h0⟩ <;>
        rw [h0] at he <;> exact absurd he (by simp)
    · split
      · refine ⟨_, rfl, ?_⟩
        rintro ⟨e, he⟩
        rcases checkOne_error_shape st.host pid d with h0 | ⟨a, b, h0⟩ | ⟨s2, h0⟩ <;>
          rw [h0] at he <;> exact absurd he (by simp)
      · split
        · refine ⟨_, rfl, ?_⟩
          rintro ⟨e, he⟩
          exact absurd he (by simp [failedStatus])
        · split
          · exact ⟨_, rfl, fun _ => rfl⟩
          · exact ⟨_, rfl, fun _ => rfl⟩


/-- Claim C6 (amended): in every `EnsureAll` run on a manifest with
unique names where dependency B's install attempt ends Failed with
`CommandFailed`, a dependency A that declares B as a prerequisite and
itself needs installing (platform supported, nothing detected) is marked
Failed with a `PrerequisiteFailed` error referencing a failed
prerequisite, A's install command is never invoked, and B's install is
attempted exactly once. -/
theorem prereq_shortcircuit_c6 (m : Manifest) (pid : String) (host : Host)
    (A : Dependency) (B : String) (res : EnsureState) (sB : DependencyStatus) (e : Nat)
    (hnodup : (m.map Dependency.name).Nodup)
    (hrun : EnsureAll m pid host = .ok res)
    (hA : A ∈ m) (hB : B ∈ A.dependencies)
    (hplat : (lookupPlatform A pid).isSome)
    (hneed : host.installedVersion A.name = none)
    (hsB : lookupStatus res.sts B = some sB)
    (hfail : sB.installed = false)
    (hcmd : sB.error = some (.commandFailed e)) :
    (∃ c sC, lookupStatus res.sts A.name =
        some (failedStatus (.prerequisiteFailed c)) ∧
      c ∈ A.dependencies ∧ lookupStatus res.sts c = some sC ∧ sC.installed = false) ∧
    A.name ∉ res.log ∧ res.log.count B = 1 := by
  unfold EnsureAll at hrun
  cases ho : Order m with
  | error e2 => rw [ho] at hrun; exact absurd hrun (by simp)
  | ok names =>
  rw [ho] at hrun
  obtain ⟨hnd, hgo, htot, _⟩ := Order_sound m names ho
  have hlA : lookupDep m A.name = some A := lookupDep_self m hnodup A hA
  have hedge : edgeOf m A.name B := ⟨A, hlA, hB⟩
  have hAmem : A.name ∈ names := htot A hA
  obtain ⟨hBmem, hlt⟩ := goodOrder_edge_idx m names hgo hnd A.name B hedge hAmem
  obtain ⟨l1, l2, hsplit⟩ := List.append_of_mem hAmem
  rw [hsplit] at hnd
  rw [List.nodup_append] at hnd
  obtain ⟨hnd1, hnd2, hdisj⟩ := hnd
  have hAl1 : A.name ∉ l1 := fun hmem => hdisj hmem (List.mem_cons_self _ _)
  have hAl2 : A.name ∉ l2 := (List.nodup_cons.mp hnd2).1
  have hidxA : idx names A.name = l1.length := by
    rw [hsplit, idx_append_right l1 (A.name :: l2) A.name hAl1]
    simp [idx]
  have hBl1 : B ∈ l1 := by
    by_contra hBn
    have h5 := idx_append_right l1 (A.name :: l2) B hBn
    rw [← hsplit] at h5
    omega
  have hBl2 : B ∉ l2 := fun hmem => hdisj hBl1 (List.mem_cons_of_mem _ hmem)
  obtain ⟨st1, hst1⟩ : ∃ st1, ensureGo m pid l1 ⟨[], host, []⟩ = st1 := ⟨_, rfl⟩
  have hres2 : ensureGo m pid names ⟨[], host, []⟩ =
      ensureGo m pid l2 (ensureStep m pid st1 A.name) := by
    rw [hsplit, ensureGo_append, hst1]
    rfl
  have hresEq : res = ensureGo m pid l2 (ensureStep m pid st1 A.name) := by
    have h2 : (Except.ok (ensureGo m pid names ⟨[], host, []⟩) :
        Except DepError EnsureState) = Except.ok res := hrun
    injection h2 with h3
    rw [← h3, hres2]
  have hkeys1 : st1.sts.map Prod.fst = l1 := by
    rw [← hst1, ensureGo_sts_keys]
    simp
  have hhost1 : st1.host.installedVersion A.name = none := by
    rw [← hst1, ensureGo_host_stable m pid l1 ⟨[], host, []⟩ A.name hAl1]
    exact hneed
  have hBkey : B ∈ st1.sts.map Prod.fst := by rw [hkeys1]; exact hBl1
  obtain ⟨sB1, hsB1⟩ := lookupStatus_isSome_of_key st1.sts B hBkey
  obtain ⟨Δ1, hΔ1⟩ : ∃ t, (ensureGo m pid l2 (ensureStep m pid st1 A.name)).sts =
      st1.sts ++ t := by
    obtain ⟨s0, hs0⟩ := ensureStep_sts_shape m pid st1 A.name
    obtain ⟨t2, ht2⟩ := ensureGo_sts_prefix m pid l2 (ensureStep m pid st1 A.name)
    exact ⟨[(A.name, s0)] ++ t2, by rw [ht2, hs0, List.append_assoc]⟩
  have hsB1B : sB1 = sB := by
    have h6 := lookupStatus_append_some st1.sts Δ1 B sB1 hsB1
    rw [← hΔ1, ← hresEq] at h6
    have h7 := hsB
    rw [h6] at h7
    injection h7 with h8
  have hpredB : (match lookupStatus st1.sts B with
      | some s => !s.installed
      | none => false) = true := by
    rw [hsB1]
    show (!sB1.installed) = true
    rw [hsB1B, hfail]
    rfl
  obtain ⟨c, hfp⟩ : ∃ c, firstFailedPrereq st1.sts A.dependencies = some c := by
    have hs : (A.dependencies.find? (fun p =>
        match lookupStatus st1.sts p with
        | some s => !s.installed
        | none => false)).isSome := by
      rw [List.find?_isSome]
      exact ⟨B, hB, hpredB⟩
    exact Option.isSome_iff_exists.mp hs
  have hcmem : c ∈ A.dependencies := List.mem_of_find?_eq_some hfp
  have hcpred := List.find?_some hfp
  obtain ⟨sC1, hsC1, hsC1f⟩ : ∃ sC1, lookupStatus st1.sts c = some sC1 ∧
      sC1.installed = false := by
    cases hlc : lookupStatus st1.sts c with
    | none => rw [hlc] at hcpred; exact absurd hcpred (by simp)
    | some s1 =>
      rw [hlc] at hcpred
      refine ⟨s1, rfl, ?_⟩
      have h9 : (!s1.installed) = true := hcpred
      cases hi : s1.installed
      · rfl
      · rw [hi] at h9; exact absurd h9 (by decide)
  obtain ⟨hstepsts, hsteplog⟩ := ensureStep_blocked m pid st1 A c hlA hplat hhost1 hfp
  have hlookA1 : lookupStatus st1.sts A.name = none :=
    lookupStatus_none_of_not_key st1.sts A.name (by rw [hkeys1]; exact hAl1)
  have hlookA2 : lookupStatus (ensureStep m pid st1 A.name).sts A.name =
      some (failedStatus (.prerequisiteFailed c)) := by
    rw [hstepsts, lookupStatus_append_none st1.sts _ A.name hlookA1]
    unfold lookupStatus
    simp [List.find?]
  obtain ⟨t3, ht3⟩ := ensureGo_sts_prefix m pid l2 (ensureStep m pid st1 A.name)
  have hfinalA : lookupStatus res.sts A.name =
      some (failedStatus (.prerequisiteFailed c)) := by
    rw [hresEq, ht3]
    exact lookupStatus_append_some _ t3 A.name _ hlookA2
  have hfinalC : lookupStatus res.sts c = some sC1 := by
    rw [hresEq, ht3, hstepsts, List.append_assoc]
    exact lookupStatus_append_some st1.sts _ c sC1 hsC1
  obtain ⟨log1, hlog1, hlog1c⟩ : ∃ t, st1.log = [] ++ t ∧
      ∀ x, t.count x ≤ l1.count x := by
    rw [← hst1]
    exact ensureGo_log_shape m pid l1 ⟨[], host, []⟩
  obtain ⟨log2, hlog2, hlog2c⟩ := ensureGo_log_shape m pid l2 (ensureStep m pid st1 A.name)
  have hreslog : res.log = st1.log ++ log2 := by
    rw [hresEq, hlog2, hsteplog]
  have hAlog : A.name ∉ res.log := by
    have h10 : res.log.count A.name = 0 := by
      rw [hreslog, List.count_append, hlog1]
      have h11 : log1.count A.name = 0 := by
        have h12 := hlog1c A.name
        have h13 : l1.count A.name = 0 := List.count_eq_zero.mpr hAl1
        omega
      have h14 : log2.count A.name = 0 := by
        have h15 := hlog2c A.name
        have h16 : l2.count A.name = 0 := List.count_eq_zero.mpr hAl2
        omega
      simp only [List.nil_append]
      omega
    exact List.count_eq_zero.mp h10
  -- B's phase inside l1
  obtain ⟨l1a, l1b, hsplitB⟩ := List.append_of_mem hBl1
  rw [hsplitB] at hnd1
  rw [List.nodup_append] at hnd1
  obtain ⟨hnda, hndb, hdisjB⟩ := hnd1
  have hBl1a : B ∉ l1a := fun hmem => hdisjB hmem (List.mem_cons_self _ _)
  have hBl1b : B ∉ l1b := (List.nodup_cons.mp hndb).1
  obtain ⟨stA, hstA⟩ : ∃ s, ensureGo m pid l1a ⟨[], host, []⟩ = s := ⟨_, rfl⟩
  have hst1b : st1 = ensureGo m pid l1b (ensureStep m pid stA B) := by
    rw [← hst1, hsplitB, ensureGo_append, hstA]
    rfl
  obtain ⟨s0, hs0sts, hs0log⟩ := ensureStep_cases m pid stA B
  have hkeysA : stA.sts.map Prod.fst = l1a := by
    rw [← hstA, ensureGo_sts_keys]
    simp
  have hlookB0 : lookupStatus stA.sts B = none :=
    lookupStatus_none_of_not_key _ _ (by rw [hkeysA]; exact hBl1a)
  have hlookB1 : lookupStatus (ensureStep m pid stA B).sts B = some s0 := by
    rw [hs0sts, lookupStatus_append_none _ _ _ hlookB0]
    unfold lookupStatus
    simp [List.find?]
  obtain ⟨t4, ht4⟩ := ensureGo_sts_prefix m pid l1b (ensureStep m pid stA B)
  have hlookB2 : lookupStatus st1.sts B = some s0 := by
    rw [hst1b, ht4]
    exact lookupStatus_append_some _ _ _ _ hlookB1
  have hs0B : s0 = sB := by
    have h17 := hsB1
    rw [hlookB2] at h17
    injection h17 with h18
    rw [h18]
    exact hsB1B
  have hlogB : (ensureStep m pid stA B).log = stA.log ++ [B] :=
    hs0log ⟨e, by rw [hs0B]; exact hcmd⟩
  obtain ⟨logA, hlogA, hlogAc⟩ : ∃ t, stA.log = [] ++ t ∧
      ∀ x, t.count x ≤ l1a.count x := by
    rw [← hstA]
    exact ensureGo_log_shape m pid l1a ⟨[], host, []⟩
  obtain ⟨logb, hlogb, hlogbc⟩ := ensureGo_log_shape m pid l1b (ensureStep m pid stA B)
  have hst1log : st1.log = (stA.log ++ [B]) ++ logb := by
    rw [hst1b, hlogb, hlogB]
  have hcountB : res.log.count B = 1 := by
    rw [hreslog, hst1log, List.count_append, List.count_append, List.count_append, hlogA]
    have h19 : logA.count B = 0 := by
      have h20 := hlogAc B
      have h21 : l1a.count B = 0 := List.count_eq_zero.mpr hBl1a
      omega
    have h22 : logb.count B = 0 := by
      have h23 := hlogbc B
      have h24 : l1b.count B = 0 := List.count_eq_zero.mpr hBl1b
      omega
    have h25 : log2.count B = 0 := by
      have h26 := hlog2c B
      have h27 : l2.count B = 0 := List.count_eq_zero.mpr hBl2
      omega
    have h28 : List.count B [B] = 1 := by simp
    simp only [List.nil_append]
    omega
  exact ⟨⟨c, sC1, hfinalA, hcmem, hfinalC, hsC1f⟩, hAlog, hcountB⟩


/-- Witness for (amended) C6 on `mfAB` over `hostFailB`: B fails with
`CommandFailed`, A (not installed) is blocked with `PrerequisiteFailed`,
A is never logged, B is logged exactly once. -/
theorem prereq_shortcircuit_c6_witness :
    (∃ c sC, lookupStatus ensureFailB.sts (mkDep "A" "1.0.0" ["B"]).name =
        some (failedStatus (.prerequisiteFailed c)) ∧
      c ∈ (mkDep "A" "1.0.0" ["B"]).dependencies ∧
      lookupStatus ensureFailB.sts c = some sC ∧ sC.installed = false) ∧
    (mkDep "A" "1.0.0" ["B"]).name ∉ ensureFailB.log ∧
    ensureFailB.log.count "B" = 1 :=
  prereq_shortcircuit_c6 mfAB "linux" hostFailB (mkDep "A" "1.0.0" ["B"]) "B"
    ensureFailB (failedStatus (.commandFailed 1)) 1
    (by decide) rfl (by decide) (by decide) (by decide) rfl
    (by decide) (by decide) (by decide)

/-- Counterexample to C6 as stated: on `mfAB` over `hostAInst`, A
declares B as a prerequisite and B's install ends Failed with
`CommandFailed`, yet A — already installed — ends Satisfied (installed,
no error), not Failed with `PrerequisiteFailed`. -/
theorem prereq_shortcircuit_c6_counterexample :
    EnsureAll mfAB "linux" hostAInst = .ok ensureAInst ∧
    "B" ∈ (mkDep "A" "1.0.0" ["B"]).dependencies ∧
    (lookupStatus ensureAInst.sts "B").map
        (fun s => (s.installed, s.error)) = some (false, some (.commandFailed 1)) ∧
    (lookupStatus ensureAInst.sts "A").map
        (fun s => (s.installed, s.error)) = some (true, none) :=
  ⟨rfl, by decide, by decide, by decide⟩

end Depman
